import Mathlib

/-!
Verification of the dotkc vault storage engine (`bin/vault.mjs` and the vault
CLI in `bin/dotkc.mjs`) against its natural-language specification.

The development shallowly embeds the JavaScript source:
* byte strings are `List Nat` (each entry `< 256` where it matters),
* `Buffer.from(s, 'utf8')` / `buf.toString('utf8')` are a real UTF-8 codec,
* `buf.toString('base64')` / `Buffer.from(s, 'base64')` are a real base64 codec,
* `JSON.stringify` / `JSON.parse` of the vault data (a nested string map) are a
  real serializer and character-level parser,
* the AES-256-GCM stream cipher is modelled as CTR-style XOR with a keystream
  parameter plus a tag parameter (the round-trip and format-check properties
  proved here hold for every instantiation of those parameters, in particular
  for AES),
* the filesystem visible to the vault (one directory) is an association list
  from file names to byte contents, with the names the code constructs
  (`vault`, `vault.bak-<ts>`, `vault.tmp-<id>`, the key file) represented by an
  inductive type so that distinctness of the name families is structural.
-/

namespace Dotkc

/-! ## Association lists (JS objects with string keys, insertion ordered) -/

/-- Lookup in a JS-object-like association list (`obj[k]`). -/
def lookupA (l : List (String × α)) (k : String) : Option α :=
  match l with
  | [] => none
  | (n, v) :: rest => if n = k then some v else lookupA rest k

/-- Property update `obj[k] = v`: replaces in place if the key exists,
otherwise appends (JS string-keyed property order). -/
def updateA (l : List (String × α)) (k : String) (v : α) : List (String × α) :=
  match l with
  | [] => [(k, v)]
  | (n, w) :: rest => if n = k then (n, v) :: rest else (n, w) :: updateA rest k v

/-- Property deletion `delete obj[k]`. -/
def eraseA (l : List (String × α)) (k : String) : List (String × α) :=
  match l with
  | [] => []
  | (n, w) :: rest => if n = k then eraseA rest k else (n, w) :: eraseA rest k

/-! ## UTF-8 (`Buffer.from(s, 'utf8')` and `buf.toString('utf8')`) -/

/-- UTF-8 encoding of a single scalar value. -/
def utf8EncodeChar (c : Char) : List Nat :=
  let n := c.toNat
  if n < 0x80 then [n]
  else if n < 0x800 then [0xC0 + n / 64, 0x80 + n % 64]
  else if n < 0x10000 then [0xE0 + n / 4096, 0x80 + n / 64 % 64, 0x80 + n % 64]
  else [0xF0 + n / 262144, 0x80 + n / 4096 % 64, 0x80 + n / 64 % 64, 0x80 + n % 64]

/-- UTF-8 encoding of a string (`Buffer.from(s, 'utf8')`). -/
def utf8Encode (s : String) : List Nat :=
  s.data.flatMap utf8EncodeChar

/-- Decoding of one UTF-8 sequence at the head of the byte list; returns the
decoded scalar and the remaining bytes. -/
def utf8DecodeOne (b : Nat) (bs : List Nat) : Option (Char × List Nat) :=
  if b < 0x80 then
    some (Char.ofNat b, bs)
  else if b < 0xC0 then none
  else if b < 0xE0 then
    match bs with
    | b2 :: bs2 =>
      if 0x80 ≤ b2 ∧ b2 < 0xC0 then
        some (Char.ofNat ((b - 0xC0) * 64 + (b2 - 0x80)), bs2)
      else none
    | _ => none
  else if b < 0xF0 then
    match bs with
    | b2 :: b3 :: bs3 =>
      if (0x80 ≤ b2 ∧ b2 < 0xC0) ∧ (0x80 ≤ b3 ∧ b3 < 0xC0) then
        some (Char.ofNat ((b - 0xE0) * 4096 + (b2 - 0x80) * 64 + (b3 - 0x80)), bs3)
      else none
    | _ => none
  else
    match bs with
    | b2 :: b3 :: b4 :: bs4 =>
      if (0x80 ≤ b2 ∧ b2 < 0xC0) ∧ (0x80 ≤ b3 ∧ b3 < 0xC0) ∧ (0x80 ≤ b4 ∧ b4 < 0xC0) then
        some
          (Char.ofNat
            ((b - 0xF0) * 262144 + (b2 - 0x80) * 4096 + (b3 - 0x80) * 64 + (b4 - 0x80)),
          bs4)
      else none
    | _ => none

/-- Fuelled UTF-8 decoding loop; every step consumes at least one byte, so fuel
equal to the input length is always sufficient. -/
def utf8DecodeAux : Nat → List Nat → Option (List Char)
  | _, [] => some []
  | 0, _ :: _ => none
  | fuel + 1, b :: bs =>
    match utf8DecodeOne b bs with
    | none => none
    | some (c, rest) => (utf8DecodeAux fuel rest).map (c :: ·)

/-- UTF-8 decoding (`buf.toString('utf8')`), strict: malformed input is `none`. -/
def utf8Decode (bs : List Nat) : Option (List Char) :=
  utf8DecodeAux bs.length bs

/-- Lenient decoding used where Node's `toString('utf8')` never throws; for the
inputs the proofs need, the strict decoder succeeds. -/
def toUtf8String (bs : List Nat) : String :=
  ⟨(utf8Decode bs).getD []⟩

theorem char_toNat_lt (c : Char) : c.toNat < 1114112 := by
  have h : c.val.toNat.isValidChar := c.valid
  simp only [Nat.isValidChar] at h
  have : c.toNat = c.val.toNat := rfl
  omega

theorem utf8DecodeAux_encChar (c : Char) (rest : List Nat) (fuel : Nat) :
    utf8DecodeAux (fuel + 1) (utf8EncodeChar c ++ rest) =
      (utf8DecodeAux fuel rest).map (c :: ·) := by
  have hofNat : Char.ofNat c.toNat = c := Char.ofNat_toNat c
  have hv : c.toNat < 1114112 := char_toNat_lt c
  simp only [utf8EncodeChar]
  generalize hgen : c.toNat = n at hofNat hv
  by_cases h1 : n < 0x80
  · simp only [h1, if_true, List.cons_append, List.nil_append, utf8DecodeAux, utf8DecodeOne,
      hofNat]
  · by_cases h2 : n < 0x800
    · have e1 : ¬ (0xC0 + n / 64 < 0x80) := by omega
      have e2 : ¬ (0xC0 + n / 64 < 0xC0) := by omega
      have e3 : 0xC0 + n / 64 < 0xE0 := by omega
      have hb2 : 0x80 ≤ 0x80 + n % 64 ∧ 0x80 + n % 64 < 0xC0 := by omega
      have heq : ((0xC0 + n / 64) - 0xC0) * 64 + ((0x80 + n % 64) - 0x80) = n := by omega
      simp only [h1, h2, if_true, if_false, List.cons_append, List.nil_append, utf8DecodeAux,
        utf8DecodeOne]
      simp only [e1, e2, e3, if_false, if_true, hb2, and_self, heq, hofNat]
    · by_cases h3 : n < 0x10000
      · have e1 : ¬ (0xE0 + n / 4096 < 0x80) := by omega
        have e2 : ¬ (0xE0 + n / 4096 < 0xC0) := by omega
        have e3 : ¬ (0xE0 + n / 4096 < 0xE0) := by omega
        have e4 : 0xE0 + n / 4096 < 0xF0 := by omega
        have hb : (0x80 ≤ 0x80 + n / 64 % 64 ∧ 0x80 + n / 64 % 64 < 0xC0) ∧
            (0x80 ≤ 0x80 + n % 64 ∧ 0x80 + n % 64 < 0xC0) := by omega
        have heq : ((0xE0 + n / 4096) - 0xE0) * 4096 + ((0x80 + n / 64 % 64) - 0x80) * 64 +
            ((0x80 + n % 64) - 0x80) = n := by omega
        simp only [h1, h2, h3, if_true, if_false, List.cons_append, List.nil_append,
          utf8DecodeAux, utf8DecodeOne]
        simp only [e1, e2, e3, e4, if_false, if_true, hb, and_self, heq, hofNat]
      · have e1 : ¬ (0xF0 + n / 262144 < 0x80) := by omega
        have e2 : ¬ (0xF0 + n / 262144 < 0xC0) := by omega
        have e3 : ¬ (0xF0 + n / 262144 < 0xE0) := by omega
        have e4 : ¬ (0xF0 + n / 262144 < 0xF0) := by omega
        have hb : (0x80 ≤ 0x80 + n / 4096 % 64 ∧ 0x80 + n / 4096 % 64 < 0xC0) ∧
            (0x80 ≤ 0x80 + n / 64 % 64 ∧ 0x80 + n / 64 % 64 < 0xC0) ∧
            (0x80 ≤ 0x80 + n % 64 ∧ 0x80 + n % 64 < 0xC0) := by omega
        have heq : ((0xF0 + n / 262144) - 0xF0) * 262144 +
            ((0x80 + n / 4096 % 64) - 0x80) * 4096 +
            ((0x80 + n / 64 % 64) - 0x80) * 64 + ((0x80 + n % 64) - 0x80) = n := by omega
        simp only [h1, h2, h3, if_true, if_false, List.cons_append, List.nil_append,
          utf8DecodeAux, utf8DecodeOne]
        simp only [e1, e2, e3, e4, if_false, hb, and_self, heq, hofNat]
        simp

theorem utf8DecodeAux_encode (cs : List Char) (rest : List Nat) (fuel : Nat)
    (h : cs.length ≤ fuel) :
    utf8DecodeAux fuel (cs.flatMap utf8EncodeChar ++ rest) =
      (utf8DecodeAux (fuel - cs.length) rest).map (cs ++ ·) := by
  induction cs generalizing fuel with
  | nil =>
    simp only [List.flatMap_nil, List.nil_append, List.length_nil, Nat.sub_zero]
    cases utf8DecodeAux fuel rest <;> simp
  | cons c cs ih =>
    cases fuel with
    | zero => simp at h
    | succ f =>
      have hle : cs.length ≤ f := by
        simp only [List.length_cons] at h
        omega
      simp only [List.flatMap_cons, List.append_assoc]
      rw [utf8DecodeAux_encChar, ih f hle, Option.map_map]
      simp only [List.length_cons, Nat.succ_sub_succ]
      rfl

theorem length_le_flatMap_encode (cs : List Char) :
    cs.length ≤ (cs.flatMap utf8EncodeChar).length := by
  induction cs with
  | nil => simp
  | cons c cs ih =>
    have hne : utf8EncodeChar c ≠ [] := by
      simp only [utf8EncodeChar]
      split <;> [skip; split] <;> [skip; skip; split] <;> simp
    have : 1 ≤ (utf8EncodeChar c).length := by
      cases hcase : utf8EncodeChar c with
      | nil => exact absurd hcase hne
      | cons x xs => simp
    simp only [List.flatMap_cons, List.length_cons, List.length_append]
    omega

/-- Round-trip of the UTF-8 codec on every string. -/
theorem utf8Decode_utf8Encode (s : String) : utf8Decode (utf8Encode s) = some s.data := by
  have h := utf8DecodeAux_encode s.data [] (s.data.flatMap utf8EncodeChar).length
    (length_le_flatMap_encode s.data)
  rw [List.append_nil] at h
  rw [utf8Decode, utf8Encode, h]
  simp [utf8DecodeAux]

theorem utf8EncodeChar_lt (c : Char) : ∀ b ∈ utf8EncodeChar c, b < 256 := by
  have hv : c.toNat < 1114112 := char_toNat_lt c
  intro b hb
  simp only [utf8EncodeChar] at hb
  split at hb
  · simp only [List.mem_singleton] at hb
    omega
  · split at hb
    · simp only [List.mem_cons, List.not_mem_nil, or_false] at hb
      rcases hb with h | h <;> omega
    · split at hb
      · simp only [List.mem_cons, List.not_mem_nil, or_false] at hb
        rcases hb with h | h | h <;> omega
      · simp only [List.mem_cons, List.not_mem_nil, or_false] at hb
        rcases hb with h | h | h | h <;> omega

theorem utf8Encode_lt (s : String) : ∀ b ∈ utf8Encode s, b < 256 := by
  intro b hb
  simp only [utf8Encode, List.mem_flatMap] at hb
  obtain ⟨c, _, hc⟩ := hb
  exact utf8EncodeChar_lt c b hc

theorem utf8EncodeChar_ne_nil (c : Char) : utf8EncodeChar c ≠ [] := by
  simp only [utf8EncodeChar]
  split <;> [skip; split] <;> [skip; skip; split] <;> simp

theorem utf8Encode_ne_nil {s : String} (h : s.data ≠ []) : utf8Encode s ≠ [] := by
  rcases s with ⟨cs⟩
  cases cs with
  | nil => simp at h
  | cons c cs =>
    simp only [utf8Encode, List.flatMap_cons, ne_eq, List.append_eq_nil]
    intro hcontra
    exact utf8EncodeChar_ne_nil c hcontra.1

/-! ## Base64 (`buf.toString('base64')` and `Buffer.from(s, 'base64')`) -/

/-- Node's base64 alphabet. -/
def b64Alphabet : List Char :=
  "ABCDEFGHIJKLMNOPQRSTUVWXYZabcdefghijklmnopqrstuvwxyz0123456789+/".data

/-- Character for a six-bit group. -/
def b64Chr (n : Nat) : Char :=
  b64Alphabet.getD n '?'

/-- Six-bit value of an alphabet character, `none` for padding and foreign
characters (Node's decoder skips those). -/
def b64Val (c : Char) : Option Nat :=
  List.indexOf? c b64Alphabet

/-- Base64 encoding of a byte list, three bytes per four characters with `=`
padding (`buf.toString('base64')`). -/
def b64EncodeAux : List Nat → List Char
  | [] => []
  | [b1] => [b64Chr (b1 / 4), b64Chr (b1 % 4 * 16), '=', '=']
  | [b1, b2] => [b64Chr (b1 / 4), b64Chr (b1 % 4 * 16 + b2 / 16), b64Chr (b2 % 16 * 4), '=']
  | b1 :: b2 :: b3 :: bs =>
    b64Chr (b1 / 4) :: b64Chr (b1 % 4 * 16 + b2 / 16) :: b64Chr (b2 % 16 * 4 + b3 / 64) ::
      b64Chr (b3 % 64) :: b64EncodeAux bs

def b64Encode (bs : List Nat) : String :=
  ⟨b64EncodeAux bs⟩

/-- Reassembly of bytes from the six-bit groups of the significant characters. -/
def b64DecodeAux : List Nat → List Nat
  | s1 :: s2 :: s3 :: s4 :: rest =>
    (s1 * 4 + s2 / 16) :: (s2 % 16 * 16 + s3 / 4) :: (s3 % 4 * 64 + s4) :: b64DecodeAux rest
  | [s1, s2] => [s1 * 4 + s2 / 16]
  | [s1, s2, s3] => [s1 * 4 + s2 / 16, s2 % 16 * 16 + s3 / 4]
  | _ => []

/-- Base64 decoding (`Buffer.from(s, 'base64')`), lenient: non-alphabet
characters (including padding) are skipped, a trailing lone six-bit group is
dropped. -/
def b64Decode (s : String) : List Nat :=
  b64DecodeAux (s.data.filterMap b64Val)

theorem b64Val_b64Chr : ∀ n, n < 64 → b64Val (b64Chr n) = some n := by
  decide

theorem b64Val_pad : b64Val '=' = none := by
  decide

theorem b64Decode_b64Encode (bs : List Nat) (h : ∀ b ∈ bs, b < 256) :
    b64Decode (b64Encode bs) = bs := by
  suffices hs : b64DecodeAux ((b64EncodeAux bs).filterMap b64Val) = bs by
    simpa [b64Decode, b64Encode] using hs
  induction bs using b64EncodeAux.induct with
  | case1 => simp [b64EncodeAux, b64DecodeAux]
  | case2 b1 =>
    have h1 : b1 < 256 := h b1 (by simp)
    rw [b64EncodeAux]
    simp only [List.filterMap_cons, b64Val_pad,
      b64Val_b64Chr (b1 / 4) (by omega), b64Val_b64Chr (b1 % 4 * 16) (by omega),
      List.filterMap_nil]
    rw [b64DecodeAux]
    congr 1
    omega
  | case3 b1 b2 =>
    have h1 : b1 < 256 := h b1 (by simp)
    have h2 : b2 < 256 := h b2 (by simp)
    rw [b64EncodeAux]
    simp only [List.filterMap_cons, b64Val_pad,
      b64Val_b64Chr (b1 / 4) (by omega), b64Val_b64Chr (b1 % 4 * 16 + b2 / 16) (by omega),
      b64Val_b64Chr (b2 % 16 * 4) (by omega), List.filterMap_nil]
    rw [b64DecodeAux]
    congr 2 <;> omega
  | case4 b1 b2 b3 bs ih =>
    have h1 : b1 < 256 := h b1 (by simp)
    have h2 : b2 < 256 := h b2 (by simp)
    have h3 : b3 < 256 := h b3 (by simp)
    have hrest : ∀ b ∈ bs, b < 256 := fun b hb => h b (by simp [hb])
    rw [b64EncodeAux]
    simp only [List.filterMap_cons,
      b64Val_b64Chr (b1 / 4) (by omega), b64Val_b64Chr (b1 % 4 * 16 + b2 / 16) (by omega),
      b64Val_b64Chr (b2 % 16 * 4 + b3 / 64) (by omega), b64Val_b64Chr (b3 % 64) (by omega)]
    rw [b64DecodeAux]
    rw [ih hrest]
    congr 3 <;> omega

/-! ## JSON strings (`JSON.stringify` escaping and the matching parser) -/

/-- Lowercase hexadecimal digit. -/
def hexDig (n : Nat) : Char :=
  if n < 10 then Char.ofNat (48 + n) else Char.ofNat (87 + n)

/-- Hexadecimal digit value. -/
def hexVal (c : Char) : Option Nat :=
  if '0' ≤ c ∧ c ≤ '9' then some (c.toNat - 48)
  else if 'a' ≤ c ∧ c ≤ 'f' then some (c.toNat - 87)
  else if 'A' ≤ c ∧ c ≤ 'F' then some (c.toNat - 55)
  else none

/-- Escaping of one character, exactly as `JSON.stringify` emits it: quote and
backslash get short escapes, control characters get `\b \t \n \f \r` or
`\u00xx`, everything else is written raw. -/
def escapeChar (c : Char) : List Char :=
  if c = '"' then ['\\', '"']
  else if c = '\\' then ['\\', '\\']
  else if c.toNat < 0x20 then
    if c = Char.ofNat 8 then ['\\', 'b']
    else if c = Char.ofNat 9 then ['\\', 't']
    else if c = Char.ofNat 10 then ['\\', 'n']
    else if c = Char.ofNat 12 then ['\\', 'f']
    else if c = Char.ofNat 13 then ['\\', 'r']
    else ['\\', 'u', '0', '0', hexDig (c.toNat / 16), hexDig (c.toNat % 16)]
  else [c]

/-- JSON string literal for `s`, quotes included. -/
def strLit (s : String) : List Char :=
  '"' :: s.data.flatMap escapeChar ++ ['"']

/-- Parser loop for the body of a JSON string literal (after the opening
quote); returns the decoded characters and the input after the closing quote.
Every decoded character consumes at least one input character, so fuel equal to
the input length is always sufficient. -/
def parseStrBodyAux : Nat → List Char → Option (List Char × List Char)
  | _, [] => none
  | 0, _ :: _ => none
  | fuel + 1, c :: rest =>
    if c = '"' then some ([], rest)
    else if c = '\\' then
      match rest with
      | [] => none
      | e :: rest2 =>
        if e = '"' then (fun p => ('"' :: p.1, p.2)) <$> parseStrBodyAux fuel rest2
        else if e = '\\' then (fun p => ('\\' :: p.1, p.2)) <$> parseStrBodyAux fuel rest2
        else if e = '/' then (fun p => ('/' :: p.1, p.2)) <$> parseStrBodyAux fuel rest2
        else if e = 'b' then (fun p => (Char.ofNat 8 :: p.1, p.2)) <$> parseStrBodyAux fuel rest2
        else if e = 't' then (fun p => (Char.ofNat 9 :: p.1, p.2)) <$> parseStrBodyAux fuel rest2
        else if e = 'n' then
          (fun p => (Char.ofNat 10 :: p.1, p.2)) <$> parseStrBodyAux fuel rest2
        else if e = 'f' then
          (fun p => (Char.ofNat 12 :: p.1, p.2)) <$> parseStrBodyAux fuel rest2
        else if e = 'r' then
          (fun p => (Char.ofNat 13 :: p.1, p.2)) <$> parseStrBodyAux fuel rest2
        else if e = 'u' then
          match rest2 with
          | h1 :: h2 :: h3 :: h4 :: rest3 =>
            match hexVal h1, hexVal h2, hexVal h3, hexVal h4 with
            | some v1, some v2, some v3, some v4 =>
              (fun p => (Char.ofNat (v1 * 4096 + v2 * 256 + v3 * 16 + v4) :: p.1, p.2)) <$>
                parseStrBodyAux fuel rest3
            | _, _, _, _ => none
          | _ => none
        else none
    else (fun p => (c :: p.1, p.2)) <$> parseStrBodyAux fuel rest

theorem hexVal_hexDig : ∀ n, n < 16 → hexVal (hexDig n) = some n := by
  decide

theorem psbQuote (f : Nat) (rest : List Char) :
    parseStrBodyAux (f + 1) ('"' :: rest) = some ([], rest) := rfl

theorem psbEscQuote (f : Nat) (rest : List Char) :
    parseStrBodyAux (f + 1) ('\\' :: '"' :: rest) =
      (fun p => ('"' :: p.1, p.2)) <$> parseStrBodyAux f rest := rfl

theorem psbEscBackslash (f : Nat) (rest : List Char) :
    parseStrBodyAux (f + 1) ('\\' :: '\\' :: rest) =
      (fun p => ('\\' :: p.1, p.2)) <$> parseStrBodyAux f rest := rfl

theorem psbEscB (f : Nat) (rest : List Char) :
    parseStrBodyAux (f + 1) ('\\' :: 'b' :: rest) =
      (fun p => (Char.ofNat 8 :: p.1, p.2)) <$> parseStrBodyAux f rest := rfl

theorem psbEscT (f : Nat) (rest : List Char) :
    parseStrBodyAux (f + 1) ('\\' :: 't' :: rest) =
      (fun p => (Char.ofNat 9 :: p.1, p.2)) <$> parseStrBodyAux f rest := rfl

theorem psbEscN (f : Nat) (rest : List Char) :
    parseStrBodyAux (f + 1) ('\\' :: 'n' :: rest) =
      (fun p => (Char.ofNat 10 :: p.1, p.2)) <$> parseStrBodyAux f rest := rfl

theorem psbEscF (f : Nat) (rest : List Char) :
    parseStrBodyAux (f + 1) ('\\' :: 'f' :: rest) =
      (fun p => (Char.ofNat 12 :: p.1, p.2)) <$> parseStrBodyAux f rest := rfl

theorem psbEscR (f : Nat) (rest : List Char) :
    parseStrBodyAux (f + 1) ('\\' :: 'r' :: rest) =
      (fun p => (Char.ofNat 13 :: p.1, p.2)) <$> parseStrBodyAux f rest := rfl

theorem psbEscU (f : Nat) (d1 d2 d3 d4 : Char) (rest : List Char) (v1 v2 v3 v4 : Nat)
    (hv1 : hexVal d1 = some v1) (hv2 : hexVal d2 = some v2)
    (hv3 : hexVal d3 = some v3) (hv4 : hexVal d4 = some v4) :
    parseStrBodyAux (f + 1) ('\\' :: 'u' :: d1 :: d2 :: d3 :: d4 :: rest) =
      (fun p => (Char.ofNat (v1 * 4096 + v2 * 256 + v3 * 16 + v4) :: p.1, p.2)) <$>
        parseStrBodyAux f rest := by
  show (match hexVal d1, hexVal d2, hexVal d3, hexVal d4 with
    | some w1, some w2, some w3, some w4 =>
      (fun p => (Char.ofNat (w1 * 4096 + w2 * 256 + w3 * 16 + w4) :: p.1, p.2)) <$>
        parseStrBodyAux f rest
    | _, _, _, _ => none) =
      (fun p => (Char.ofNat (v1 * 4096 + v2 * 256 + v3 * 16 + v4) :: p.1, p.2)) <$>
        parseStrBodyAux f rest
  rw [hv1, hv2, hv3, hv4]

theorem psbRaw (f : Nat) (c : Char) (rest : List Char) (h1 : ¬ c = '"') (h2 : ¬ c = '\\') :
    parseStrBodyAux (f + 1) (c :: rest) =
      (fun p => (c :: p.1, p.2)) <$> parseStrBodyAux f rest := by
  show (if c = '"' then some ([], rest)
    else if c = '\\' then
      match rest with
      | [] => none
      | e :: rest2 =>
        if e = '"' then (fun p => ('"' :: p.1, p.2)) <$> parseStrBodyAux f rest2
        else if e = '\\' then (fun p => ('\\' :: p.1, p.2)) <$> parseStrBodyAux f rest2
        else if e = '/' then (fun p => ('/' :: p.1, p.2)) <$> parseStrBodyAux f rest2
        else if e = 'b' then (fun p => (Char.ofNat 8 :: p.1, p.2)) <$> parseStrBodyAux f rest2
        else if e = 't' then (fun p => (Char.ofNat 9 :: p.1, p.2)) <$> parseStrBodyAux f rest2
        else if e = 'n' then
          (fun p => (Char.ofNat 10 :: p.1, p.2)) <$> parseStrBodyAux f rest2
        else if e = 'f' then
          (fun p => (Char.ofNat 12 :: p.1, p.2)) <$> parseStrBodyAux f rest2
        else if e = 'r' then
          (fun p => (Char.ofNat 13 :: p.1, p.2)) <$> parseStrBodyAux f rest2
        else if e = 'u' then
          match rest2 with
          | e1 :: e2 :: e3 :: e4 :: rest3 =>
            match hexVal e1, hexVal e2, hexVal e3, hexVal e4 with
            | some v1, some v2, some v3, some v4 =>
              (fun p => (Char.ofNat (v1 * 4096 + v2 * 256 + v3 * 16 + v4) :: p.1, p.2)) <$>
                parseStrBodyAux f rest3
            | _, _, _, _ => none
          | _ => none
        else none
    else (fun p => (c :: p.1, p.2)) <$> parseStrBodyAux f rest) =
      (fun p => (c :: p.1, p.2)) <$> parseStrBodyAux f rest
  rw [if_neg h1, if_neg h2]

theorem escapeChar_raw (c : Char) (h1 : ¬ c = '"') (h2 : ¬ c = '\\')
    (h3 : ¬ c.toNat < 0x20) : escapeChar c = [c] := by
  rw [escapeChar, if_neg h1, if_neg h2, if_neg h3]

theorem escapeChar_ctrl (c : Char) (h1 : ¬ c = '"') (h2 : ¬ c = '\\') (h3 : c.toNat < 0x20)
    (hb : ¬ c = Char.ofNat 8) (ht : ¬ c = Char.ofNat 9) (hn : ¬ c = Char.ofNat 10)
    (hf : ¬ c = Char.ofNat 12) (hr : ¬ c = Char.ofNat 13) :
    escapeChar c = ['\\', 'u', '0', '0', hexDig (c.toNat / 16), hexDig (c.toNat % 16)] := by
  rw [escapeChar, if_neg h1, if_neg h2, if_pos h3, if_neg hb, if_neg ht, if_neg hn, if_neg hf,
    if_neg hr]

theorem parseStrBodyAux_escape (cs : List Char) (rest : List Char) (fuel : Nat)
    (hf : cs.length + 1 ≤ fuel) :
    parseStrBodyAux fuel (cs.flatMap escapeChar ++ '"' :: rest) = some (cs, rest) := by
  induction cs generalizing fuel with
  | nil =>
    cases fuel with
    | zero => simp at hf
    | succ f =>
      simp only [List.flatMap_nil, List.nil_append]
      exact psbQuote f rest
  | cons c cs ih =>
    cases fuel with
    | zero => simp at hf
    | succ f =>
      have hle : cs.length + 1 ≤ f := by
        simp only [List.length_cons] at hf
        omega
      simp only [List.flatMap_cons, List.append_assoc]
      by_cases h1 : c = '"'
      · subst h1
        have he : escapeChar '"' = ['\\', '"'] := rfl
        rw [he, List.cons_append, List.cons_append, List.nil_append, psbEscQuote, ih f hle]
        rfl
      · by_cases h2 : c = '\\'
        · subst h2
          have he : escapeChar '\\' = ['\\', '\\'] := rfl
          rw [he, List.cons_append, List.cons_append, List.nil_append, psbEscBackslash,
            ih f hle]
          rfl
        · by_cases h3 : c.toNat < 0x20
          · by_cases hb : c = Char.ofNat 8
            · subst hb
              have he : escapeChar (Char.ofNat 8) = ['\\', 'b'] := rfl
              rw [he, List.cons_append, List.cons_append, List.nil_append, psbEscB, ih f hle]
              rfl
            · by_cases ht : c = Char.ofNat 9
              · subst ht
                have he : escapeChar (Char.ofNat 9) = ['\\', 't'] := rfl
                rw [he, List.cons_append, List.cons_append, List.nil_append, psbEscT, ih f hle]
                rfl
              · by_cases hn : c = Char.ofNat 10
                · subst hn
                  have he : escapeChar (Char.ofNat 10) = ['\\', 'n'] := rfl
                  rw [he, List.cons_append, List.cons_append, List.nil_append, psbEscN,
                    ih f hle]
                  rfl
                · by_cases hf12 : c = Char.ofNat 12
                  · subst hf12
                    have he : escapeChar (Char.ofNat 12) = ['\\', 'f'] := rfl
                    rw [he, List.cons_append, List.cons_append, List.nil_append, psbEscF,
                      ih f hle]
                    rfl
                  · by_cases hr : c = Char.ofNat 13
                    · subst hr
                      have he : escapeChar (Char.ofNat 13) = ['\\', 'r'] := rfl
                      rw [he, List.cons_append, List.cons_append, List.nil_append, psbEscR,
                        ih f hle]
                      rfl
                    · have hhi : hexVal (hexDig (c.toNat / 16)) = some (c.toNat / 16) :=
                        hexVal_hexDig _ (by omega)
                      have hlo : hexVal (hexDig (c.toNat % 16)) = some (c.toNat % 16) :=
                        hexVal_hexDig _ (by omega)
                      have hz : hexVal '0' = some 0 := by decide
                      have hch : 0 * 4096 + 0 * 256 + c.toNat / 16 * 16 + c.toNat % 16 =
                          c.toNat := by omega
                      rw [escapeChar_ctrl c h1 h2 h3 hb ht hn hf12 hr]
                      simp only [List.cons_append, List.nil_append]
                      rw [psbEscU f '0' '0' _ _ _ 0 0 _ _ hz hz hhi hlo, ih f hle, hch,
                        Char.ofNat_toNat]
                      rfl
          · rw [escapeChar_raw c h1 h2 h3, List.cons_append, List.nil_append,
              psbRaw f c _ h1 h2, ih f hle]
            rfl

theorem length_le_flatMap_escape (cs : List Char) :
    cs.length ≤ (cs.flatMap escapeChar).length := by
  induction cs with
  | nil => simp
  | cons c cs ih =>
    have hne : escapeChar c ≠ [] := by
      rw [escapeChar]
      split_ifs <;> simp
    have : 1 ≤ (escapeChar c).length := by
      cases hcase : escapeChar c with
      | nil => exact absurd hcase hne
      | cons x xs => simp
    simp only [List.flatMap_cons, List.length_cons, List.length_append]
    omega

/-- Parser for a JSON string value (opening quote included). -/
def parseJStr : List Char → Option (String × List Char)
  | [] => none
  | c :: cs =>
    if c = '"' then (fun p => ((⟨p.1⟩ : String), p.2)) <$> parseStrBodyAux cs.length cs
    else none

theorem parseJStr_strLit (s : String) (rest : List Char) :
    parseJStr (strLit s ++ rest) = some (s, rest) := by
  have h : s.data.flatMap escapeChar ++ ['"'] ++ rest =
      s.data.flatMap escapeChar ++ '"' :: rest := by
    simp
  have hlen : s.data.length + 1 ≤ (s.data.flatMap escapeChar ++ '"' :: rest).length := by
    have := length_le_flatMap_escape s.data
    simp only [List.length_append, List.length_cons]
    omega
  rcases s with ⟨cs⟩
  simp only [strLit, List.cons_append, parseJStr, if_true]
  rw [h, parseStrBodyAux_escape cs rest _ hlen]
  rfl

/-! ## JSON objects (compact `JSON.stringify` form and the matching parser) -/

/-- Comma-separated join of printed members. -/
def joinComma : List (List Char) → List Char
  | [] => []
  | [x] => x
  | x :: y :: xs => x ++ ',' :: joinComma (y :: xs)

/-- Members of an object, printed in insertion order with values printed by
`pf`. -/
def printMembers (pf : α → List Char) (l : List (String × α)) : List Char :=
  joinComma (l.map fun p => strLit p.1 ++ ':' :: pf p.2)

/-- Compact `JSON.stringify` of an object whose values are printed by `pf`. -/
def printObj (pf : α → List Char) (l : List (String × α)) : List Char :=
  '{' :: printMembers pf l ++ ['}']

/-- Expect a colon at the head of the input. -/
def expectColon : List Char → Option (List Char)
  | c :: cs => if c = ':' then some cs else none
  | [] => none

/-- Continuation after one `"key":value` member: a comma continues the member
list via `recurse`, a closing brace ends the object. -/
def membersTail (recurse : List Char → Option (List (String × α) × List Char))
    (k : String) (v : α) : List Char → Option (List (String × α) × List Char)
  | ',' :: cs5 => (recurse cs5).bind fun mp => some ((k, v) :: mp.1, mp.2)
  | '}' :: cs5 => some ([(k, v)], cs5)
  | _ => none

/-- Parser loop for a nonempty member list (after the opening brace); consumes
the closing brace. Fuel bounds the number of members. -/
def parseMembersAux (pv : List Char → Option (α × List Char)) :
    Nat → List Char → Option (List (String × α) × List Char)
  | _, [] => none
  | 0, _ :: _ => none
  | fuel + 1, c :: cs0 =>
    if c = '"' then
      (parseStrBodyAux cs0.length cs0).bind fun kp =>
        (expectColon kp.2).bind fun cs3 =>
          (pv cs3).bind fun vp =>
            membersTail (fun cs5 => parseMembersAux pv fuel cs5) (⟨kp.1⟩ : String) vp.1 vp.2
    else none

/-- Parser for a JSON object whose values are parsed by `pv`. -/
def parseObjWith (pv : List Char → Option (α × List Char)) (cs : List Char) :
    Option (List (String × α) × List Char) :=
  match cs with
  | '{' :: cs1 =>
    match cs1 with
    | [] => none
    | c :: cs2 => if c = '}' then some ([], cs2) else parseMembersAux pv cs1.length (c :: cs2)
  | _ => none

theorem expectColon_colon (cs : List Char) : expectColon (':' :: cs) = some cs := rfl

theorem membersTail_comma (recurse : List Char → Option (List (String × α) × List Char))
    (k : String) (v : α) (cs : List Char) :
    membersTail recurse k v (',' :: cs) =
      (recurse cs).bind fun mp => some ((k, v) :: mp.1, mp.2) := rfl

theorem membersTail_brace (recurse : List Char → Option (List (String × α) × List Char))
    (k : String) (v : α) (cs : List Char) :
    membersTail recurse k v ('}' :: cs) = some ([(k, v)], cs) := rfl

theorem pmaQuote (pv : List Char → Option (α × List Char)) (f : Nat) (cs0 : List Char) :
    parseMembersAux pv (f + 1) ('"' :: cs0) =
      (parseStrBodyAux cs0.length cs0).bind fun kp =>
        (expectColon kp.2).bind fun cs3 =>
          (pv cs3).bind fun vp =>
            membersTail (fun cs5 => parseMembersAux pv f cs5) (⟨kp.1⟩ : String) vp.1 vp.2 :=
  rfl

theorem strLit_length (s : String) : 1 ≤ (strLit s).length := by
  simp [strLit]

theorem length_le_printMembers (pf : α → List Char) (l : List (String × α)) :
    l.length ≤ (printMembers pf l).length := by
  induction l with
  | nil => simp [printMembers, joinComma]
  | cons a t ih =>
    cases t with
    | nil =>
      have h1 := strLit_length a.1
      simp only [printMembers, List.map_cons, List.map_nil, joinComma, List.length_cons,
        List.length_nil, List.length_append]
      omega
    | cons b t2 =>
      have h1 := strLit_length a.1
      simp only [printMembers, List.map_cons, joinComma, List.length_cons,
        List.length_append] at ih ⊢
      omega

theorem parseMembersAux_print (pv : List Char → Option (α × List Char)) (pf : α → List Char)
    (l : List (String × α)) (hne : l ≠ []) (rest : List Char) (fuel : Nat)
    (hfuel : l.length ≤ fuel)
    (hpv : ∀ p ∈ l, ∀ r, pv (pf p.2 ++ r) = some (p.2, r)) :
    parseMembersAux pv fuel (printMembers pf l ++ '}' :: rest) = some (l, rest) := by
  induction l generalizing rest fuel with
  | nil => exact absurd rfl hne
  | cons a l ih =>
    rcases a with ⟨k, v⟩
    cases fuel with
    | zero => simp at hfuel
    | succ f =>
      have hv : pv (pf v ++ ',' :: (printMembers pf l ++ '}' :: rest)) =
          some (v, ',' :: (printMembers pf l ++ '}' :: rest)) := by
        have := hpv (k, v) (by simp) (',' :: (printMembers pf l ++ '}' :: rest))
        simpa using this
      have hvBrace : pv (pf v ++ '}' :: rest) = some (v, '}' :: rest) := by
        have := hpv (k, v) (by simp) ('}' :: rest)
        simpa using this
      cases l with
      | nil =>
        simp only [printMembers, List.map_cons, List.map_nil, joinComma, strLit,
          List.cons_append, List.append_assoc, List.singleton_append, List.nil_append]
        rw [pmaQuote]
        have hb : k.data.length + 1 ≤
            (k.data.flatMap escapeChar ++ '"' :: (':' :: (pf v ++ '}' :: rest))).length := by
          have := length_le_flatMap_escape k.data
          simp only [List.length_append, List.length_cons]
          omega
        rw [parseStrBodyAux_escape k.data (':' :: (pf v ++ '}' :: rest)) _ hb]
        simp only [Option.some_bind, expectColon_colon, hvBrace, membersTail_brace]
      | cons b t =>
        have hne2 : b :: t ≠ [] := by simp
        have hfuel2 : (b :: t).length ≤ f := by
          simp only [List.length_cons] at hfuel ⊢
          omega
        have hpv2 : ∀ p ∈ b :: t, ∀ r, pv (pf p.2 ++ r) = some (p.2, r) := by
          intro p hp r
          exact hpv p (by simp [hp]) r
        have hmem : printMembers pf ((k, v) :: b :: t) =
            strLit k ++ ':' :: (pf v ++ ',' :: printMembers pf (b :: t)) := by
          simp [printMembers, joinComma, List.append_assoc]
        rw [hmem]
        simp only [strLit, List.cons_append, List.append_assoc, List.singleton_append,
          List.nil_append]
        rw [pmaQuote]
        have hb : k.data.length + 1 ≤
            (k.data.flatMap escapeChar ++
              '"' :: (':' :: (pf v ++ ',' :: (printMembers pf (b :: t) ++ '}' :: rest)))).length := by
          have := length_le_flatMap_escape k.data
          simp only [List.length_append, List.length_cons]
          omega
        rw [parseStrBodyAux_escape k.data
          (':' :: (pf v ++ ',' :: (printMembers pf (b :: t) ++ '}' :: rest))) _ hb]
        simp only [Option.some_bind, expectColon_colon, hv, membersTail_comma]
        rw [ih hne2 rest f hfuel2 hpv2]
        rfl

theorem parseObjWith_empty (pv : List Char → Option (α × List Char)) (rest : List Char) :
    parseObjWith pv ('{' :: '}' :: rest) = some ([], rest) := rfl

theorem parseObjWith_quote (pv : List Char → Option (α × List Char)) (cs2 : List Char) :
    parseObjWith pv ('{' :: '"' :: cs2) =
      parseMembersAux pv ('"' :: cs2).length ('"' :: cs2) := rfl

theorem printMembers_head (pf : α → List Char) (a : String × α) (t : List (String × α)) :
    ∃ M, printMembers pf (a :: t) = '"' :: M := by
  cases t with
  | nil =>
    refine ⟨(a.1.data.flatMap escapeChar ++ ['"']) ++ ':' :: pf a.2, ?_⟩
    simp [printMembers, joinComma, strLit]
  | cons b t2 =>
    refine ⟨(a.1.data.flatMap escapeChar ++ ['"']) ++ ':' :: pf a.2 ++
      ',' :: joinComma ((b :: t2).map fun p => strLit p.1 ++ ':' :: pf p.2), ?_⟩
    simp [printMembers, joinComma, strLit, List.append_assoc]

theorem parseObjWith_print (pv : List Char → Option (α × List Char)) (pf : α → List Char)
    (hpv : ∀ (v : α) (r : List Char), pv (pf v ++ r) = some (v, r))
    (l : List (String × α)) (rest : List Char) :
    parseObjWith pv (printObj pf l ++ rest) = some (l, rest) := by
  cases l with
  | nil =>
    have h : printObj pf ([] : List (String × α)) ++ rest = '{' :: '}' :: rest := rfl
    rw [h]
    exact parseObjWith_empty pv rest
  | cons a t =>
    obtain ⟨M, hM⟩ := printMembers_head pf a t
    have happ : printObj pf (a :: t) ++ rest = '{' :: '"' :: (M ++ '}' :: rest) := by
      simp [printObj, hM, List.append_assoc]
    rw [happ, parseObjWith_quote]
    have hback : '"' :: (M ++ '}' :: rest) = printMembers pf (a :: t) ++ '}' :: rest := by
      rw [hM]
      simp
    rw [hback]
    have hful : (a :: t).length ≤ (printMembers pf (a :: t) ++ '}' :: rest).length := by
      have h1 := length_le_printMembers pf (a :: t)
      simp only [List.length_cons, List.length_append] at h1 ⊢
      omega
    exact parseMembersAux_print pv pf (a :: t) (by simp) rest _ hful
      (fun p _ r => hpv p.2 r)

/-! ## Vault data (service → category → KEY → value) and its JSON round-trip -/

/-- Innermost level: `KEY → value`. -/
abbrev InnerMap := List (String × String)

/-- Middle level: `category → InnerMap`. -/
abbrev MidMap := List (String × InnerMap)

/-- The decrypted logical vault content: `service → category → KEY → value`. -/
abbrev VaultData := List (String × MidMap)

def printStrVal (v : String) : List Char := strLit v

def printInner (m : InnerMap) : List Char := printObj printStrVal m

def printMid (m : MidMap) : List Char := printObj printInner m

/-- Compact `JSON.stringify` of the vault data, as `encryptVaultJson` uses. -/
def jsonStringifyData (d : VaultData) : String := ⟨printObj printMid d⟩

def parseStrVal (cs : List Char) : Option (String × List Char) := parseJStr cs

def parseInner (cs : List Char) : Option (InnerMap × List Char) := parseObjWith parseStrVal cs

def parseMid (cs : List Char) : Option (MidMap × List Char) := parseObjWith parseInner cs

/-- `JSON.parse` of a full vault-data document. -/
def parseVaultData (s : String) : Option VaultData :=
  match parseObjWith parseMid s.data with
  | some (d, []) => some d
  | _ => none

theorem parseStrVal_print (v : String) (r : List Char) :
    parseStrVal (printStrVal v ++ r) = some (v, r) :=
  parseJStr_strLit v r

theorem parseInner_print (m : InnerMap) (r : List Char) :
    parseInner (printInner m ++ r) = some (m, r) :=
  parseObjWith_print parseStrVal printStrVal parseStrVal_print m r

theorem parseMid_print (m : MidMap) (r : List Char) :
    parseMid (printMid m ++ r) = some (m, r) :=
  parseObjWith_print parseInner printInner parseInner_print m r

/-- Round-trip of the data-level JSON codec. -/
theorem parseVaultData_stringify (d : VaultData) :
    parseVaultData (jsonStringifyData d) = some d := by
  have h := parseObjWith_print parseMid printMid parseMid_print d []
  rw [List.append_nil] at h
  show (match parseObjWith parseMid (printObj printMid d) with
    | some (d, []) => some d
    | _ => none) = some d
  rw [h]

/-! ## CryptoCodec (AES-256-GCM model: `encryptVaultJson` / `decryptVaultJson`)

The stream cipher underlying `aes-256-gcm` is CTR-mode XOR with a
key-and-nonce-derived keystream, and the authentication tag is a
key-and-nonce-and-ciphertext-derived value. Both derivations are abstracted as
parameters (`ks`, `tagF`); the properties proved below hold for every
instantiation, in particular for the real AES keystream and GHASH tag. -/

/-- On-disk envelope object produced by `encryptVaultJson`. -/
structure Envelope where
  version : Int
  cipher : String
  iv : String
  tag : String
  ciphertext : String
deriving DecidableEq, Repr

/-- Error outcomes of the vault core. -/
inductive VaultError where
  | unsupportedFormat
  | authenticationFailed
  | parseError
  | backupFailed
deriving DecidableEq, Repr

/-- CTR-style encryption: XOR each byte with the keystream byte at its index. -/
def xorKs (ks : List Nat → List Nat → Nat → Nat) (key iv : List Nat) :
    Nat → List Nat → List Nat
  | _, [] => []
  | i, b :: bs => (b ^^^ (ks key iv i % 256)) :: xorKs ks key iv (i + 1) bs

theorem xorKs_xorKs (ks : List Nat → List Nat → Nat → Nat) (key iv : List Nat) (i : Nat)
    (bs : List Nat) : xorKs ks key iv i (xorKs ks key iv i bs) = bs := by
  induction bs generalizing i with
  | nil => rfl
  | cons b bs ih =>
    simp only [xorKs, Nat.xor_cancel_right, ih]

theorem xorKs_lt (ks : List Nat → List Nat → Nat → Nat) (key iv : List Nat) (i : Nat)
    (bs : List Nat) (h : ∀ b ∈ bs, b < 256) : ∀ b ∈ xorKs ks key iv i bs, b < 256 := by
  induction bs generalizing i with
  | nil => simp [xorKs]
  | cons b bs ih =>
    intro x hx
    simp only [xorKs, List.mem_cons] at hx
    rcases hx with hx | hx
    · subst hx
      have h1 : b < 2 ^ 8 := h b (by simp)
      have h2 : ks key iv i % 256 < 2 ^ 8 := Nat.mod_lt _ (by omega)
      exact Nat.xor_lt_two_pow h1 h2
    · exact ih (i + 1) (fun y hy => h y (by simp [hy])) x hx

/-- Model of `encryptVaultJson(key, obj)`: serialize to JSON, encrypt under
AES-256-GCM with a fresh 96-bit `iv`, return the base64-encoded envelope. The
random `iv` is an explicit argument (the code draws it from
`crypto.randomBytes(12)`). -/
def encryptVaultJson (ks : List Nat → List Nat → Nat → Nat)
    (tagF : List Nat → List Nat → List Nat → List Nat)
    (key iv : List Nat) (obj : VaultData) : Envelope :=
  let plain := utf8Encode (jsonStringifyData obj)
  let ct := xorKs ks key iv 0 plain
  { version := 1
    cipher := "aes-256-gcm"
    iv := b64Encode iv
    tag := b64Encode ((tagF key iv ct).map (· % 256))
    ciphertext := b64Encode ct }

/-- Model of `decryptVaultJson(key, vaultObj)`: reject any envelope whose
`version`/`cipher` pair is not the single supported one, verify the
authentication tag, decrypt, and `JSON.parse` the plaintext. -/
def decryptVaultJson (ks : List Nat → List Nat → Nat → Nat)
    (tagF : List Nat → List Nat → List Nat → List Nat)
    (key : List Nat) (vo : Envelope) : Except VaultError VaultData :=
  if vo.version ≠ 1 ∨ vo.cipher ≠ "aes-256-gcm" then .error .unsupportedFormat
  else
    let iv := b64Decode vo.iv
    let tag := b64Decode vo.tag
    let ct := b64Decode vo.ciphertext
    if tag ≠ (tagF key iv ct).map (· % 256) then .error .authenticationFailed
    else
      match utf8Decode (xorKs ks key iv 0 ct) with
      | none => .error .parseError
      | some chars =>
        match parseVaultData ⟨chars⟩ with
        | none => .error .parseError
        | some d => .ok d

/-- C2: for every vault data object `D` (a JSON-serializable nested string map)
and every key `K`, decrypting the envelope produced by encrypting `D` under `K`
with the same key returns a value equal to `D`. The nonce `iv` is arbitrary
(the code draws 12 random bytes), and the statement holds for every keystream
and tag derivation, in particular AES-256-GCM's. -/
theorem C2_decrypt_encrypt_roundtrip (ks : List Nat → List Nat → Nat → Nat)
    (tagF : List Nat → List Nat → List Nat → List Nat) (key iv : List Nat) (d : VaultData)
    (hiv : ∀ b ∈ iv, b < 256) :
    decryptVaultJson ks tagF key (encryptVaultJson ks tagF key iv d) = .ok d := by
  have hplain : ∀ b ∈ utf8Encode (jsonStringifyData d), b < 256 := utf8Encode_lt _
  have hct : ∀ b ∈ xorKs ks key iv 0 (utf8Encode (jsonStringifyData d)), b < 256 :=
    xorKs_lt ks key iv 0 _ hplain
  have htag : ∀ b ∈ (tagF key iv
      (xorKs ks key iv 0 (utf8Encode (jsonStringifyData d)))).map (· % 256), b < 256 := by
    intro b hb
    simp only [List.mem_map] at hb
    obtain ⟨a, _, ha⟩ := hb
    omega
  simp only [decryptVaultJson, encryptVaultJson]
  rw [if_neg (by simp)]
  rw [b64Decode_b64Encode iv hiv, b64Decode_b64Encode _ hct, b64Decode_b64Encode _ htag]
  rw [if_neg (by simp)]
  rw [xorKs_xorKs, utf8Decode_utf8Encode]
  show (match parseVaultData ⟨(jsonStringifyData d).data⟩ with
    | none => (Except.error VaultError.parseError : Except VaultError VaultData)
    | some d => .ok d) = .ok d
  rw [show ((⟨(jsonStringifyData d).data⟩ : String)) = jsonStringifyData d from rfl]
  rw [parseVaultData_stringify]

/-- Witness for C2 at a concrete vault, key and nonce. -/
theorem C2_decrypt_encrypt_roundtrip_witness :
    (∀ b ∈ List.replicate 12 0, b < 256) ∧
      decryptVaultJson (fun _ _ _ => 0) (fun _ _ _ => []) []
        (encryptVaultJson (fun _ _ _ => 0) (fun _ _ _ => []) [] (List.replicate 12 0)
          [("acme", [("prod", [("TOKEN", "abc123")])])]) =
        .ok [("acme", [("prod", [("TOKEN", "abc123")])])] :=
  ⟨by decide,
    C2_decrypt_encrypt_roundtrip (fun _ _ _ => 0) (fun _ _ _ => []) [] (List.replicate 12 0)
      [("acme", [("prod", [("TOKEN", "abc123")])])] (by decide)⟩

/-- C6: decrypting fails with `UnsupportedFormat` exactly when the envelope's
`version` is not `1` or its `cipher` is not `"aes-256-gcm"`; when both match,
decryption proceeds to tag verification instead, failing with
`AuthenticationFailed` exactly when the decoded tag differs from the one
recomputed from the key, nonce and ciphertext. -/
theorem C6_unsupported_format_iff (ks : List Nat → List Nat → Nat → Nat)
    (tagF : List Nat → List Nat → List Nat → List Nat) (key : List Nat) (vo : Envelope) :
    (decryptVaultJson ks tagF key vo = .error .unsupportedFormat ↔
      (vo.version ≠ 1 ∨ vo.cipher ≠ "aes-256-gcm"))
    ∧ (decryptVaultJson ks tagF key vo = .error .authenticationFailed ↔
      (vo.version = 1 ∧ vo.cipher = "aes-256-gcm" ∧
        b64Decode vo.tag ≠
          (tagF key (b64Decode vo.iv) (b64Decode vo.ciphertext)).map (· % 256))) := by
  simp only [decryptVaultJson]
  by_cases h : vo.version ≠ 1 ∨ vo.cipher ≠ "aes-256-gcm"
  · rw [if_pos h]
    constructor
    · simp [h]
    · constructor
      · intro hcontra
        simp at hcontra
      · rintro ⟨h1, h2, _⟩
        rcases h with h | h
        · exact absurd h1 h
        · exact absurd h2 h
  · push_neg at h
    obtain ⟨h1, h2⟩ := h
    rw [if_neg (by simp [h1, h2])]
    by_cases htag : b64Decode vo.tag ≠
        (tagF key (b64Decode vo.iv) (b64Decode vo.ciphertext)).map (· % 256)
    · rw [if_pos htag]
      constructor
      · constructor
        · intro hcontra
          simp at hcontra
        · rintro (hc | hc)
          · exact absurd h1 hc
          · exact absurd h2 hc
      · simp [h1, h2, htag]
    · rw [if_neg htag]
      rcases hu : utf8Decode (xorKs ks key (b64Decode vo.iv) 0 (b64Decode vo.ciphertext)) with
        _ | chars
      · constructor
        · constructor
          · intro hcontra
            simp at hcontra
          · rintro (hc | hc)
            · exact absurd h1 hc
            · exact absurd h2 hc
        · constructor
          · intro hcontra
            simp at hcontra
          · rintro ⟨_, _, hc⟩
            exact absurd hc htag
      · rcases hp : parseVaultData ⟨chars⟩ with _ | d
        · constructor
          · constructor
            · intro hcontra
              simp [hp] at hcontra
            · rintro (hc | hc)
              · exact absurd h1 hc
              · exact absurd h2 hc
          · constructor
            · intro hcontra
              simp [hp] at hcontra
            · rintro ⟨_, _, hc⟩
              exact absurd hc htag
        · constructor
          · constructor
            · intro hcontra
              simp [hp] at hcontra
            · rintro (hc | hc)
              · exact absurd h1 hc
              · exact absurd h2 hc
          · constructor
            · intro hcontra
              simp [hp] at hcontra
            · rintro ⟨_, _, hc⟩
              exact absurd hc htag

/-! ## Filesystem model

One directory, an association list from file names to byte contents. The names
the vault code constructs — the vault file itself, `<base>.bak-<ts>` backups,
`<fp>.tmp-<pid>-<time>` temporaries (`atomicWriteFile`) and the key file — are
represented structurally, so that distinctness of the name families (which in
the source follows from the `.bak-`/`.tmp-` infixes) is by constructor. The
lexicographic order on full backup file names `<base>.bak-<ts>` coincides with
the order on the timestamp parts `ts`, since the prefix is shared. -/

inductive FName where
  | vault : FName
  | bak : String → FName
  | tmp : String → FName
  | keyfile : FName
deriving DecidableEq, Repr

/-- Directory state: file name to byte contents, in creation order. -/
abbrev FS := List (FName × List Nat)

def lookupFS (fs : FS) (n : FName) : Option (List Nat) :=
  match fs with
  | [] => none
  | (m, c) :: rest => if m = n then some c else lookupFS rest n

/-- `fs.writeFileSync`: replace in place, or append a new entry. -/
def writeFS (fs : FS) (n : FName) (c : List Nat) : FS :=
  match fs with
  | [] => [(n, c)]
  | (m, d) :: rest => if m = n then (m, c) :: rest else (m, d) :: writeFS rest n c

/-- `fs.unlinkSync`. -/
def removeFS (fs : FS) (n : FName) : FS :=
  match fs with
  | [] => []
  | (m, d) :: rest => if m = n then removeFS rest n else (m, d) :: removeFS rest n

/-- `fs.renameSync src dst` (atomic replace of `dst`). -/
def renameFS (fs : FS) (src dst : FName) : FS :=
  match lookupFS fs src with
  | none => fs
  | some c => writeFS (removeFS fs src) dst c

theorem lookupFS_writeFS_self (fs : FS) (n : FName) (c : List Nat) :
    lookupFS (writeFS fs n c) n = some c := by
  induction fs with
  | nil => simp [writeFS, lookupFS]
  | cons a rest ih =>
    rcases a with ⟨m, d⟩
    by_cases h : m = n
    · simp [writeFS, lookupFS, h]
    · simp [writeFS, lookupFS, h, ih]

theorem lookupFS_writeFS_ne (fs : FS) (n m : FName) (c : List Nat) (h : ¬ n = m) :
    lookupFS (writeFS fs n c) m = lookupFS fs m := by
  induction fs with
  | nil => simp [writeFS, lookupFS, h]
  | cons a rest ih =>
    rcases a with ⟨k, d⟩
    by_cases hk : k = n
    · subst hk
      simp [writeFS, lookupFS, h]
    · simp [writeFS, lookupFS, hk, ih]

theorem lookupFS_removeFS_self (fs : FS) (n : FName) :
    lookupFS (removeFS fs n) n = none := by
  induction fs with
  | nil => simp [removeFS, lookupFS]
  | cons a rest ih =>
    rcases a with ⟨m, d⟩
    by_cases h : m = n
    · simp [removeFS, h, ih]
    · simp [removeFS, lookupFS, h, ih]

theorem lookupFS_removeFS_ne (fs : FS) (n m : FName) (h : ¬ n = m) :
    lookupFS (removeFS fs n) m = lookupFS fs m := by
  induction fs with
  | nil => simp [removeFS]
  | cons a rest ih =>
    rcases a with ⟨k, d⟩
    by_cases hk : k = n
    · subst hk
      simp [removeFS, lookupFS, h, ih, Ne.symm]
    · simp [removeFS, lookupFS, hk, ih]

theorem lookupFS_renameFS_dst (fs : FS) (src dst : FName) (c : List Nat)
    (hsrc : lookupFS fs src = some c) :
    lookupFS (renameFS fs src dst) dst = some c := by
  simp only [renameFS, hsrc]
  exact lookupFS_writeFS_self _ _ _

theorem lookupFS_renameFS_other (fs : FS) (src dst m : FName) (h1 : ¬ src = m)
    (h2 : ¬ dst = m) : lookupFS (renameFS fs src dst) m = lookupFS fs m := by
  simp only [renameFS]
  cases hsrc : lookupFS fs src with
  | none => rfl
  | some c =>
    rw [lookupFS_writeFS_ne _ _ _ _ h2, lookupFS_removeFS_ne _ _ _ h1]

/-! ## `atomicWriteFile` (write temp file, then atomic rename) -/

/-- Final state of `atomicWriteFile(fp, data)`: the fully written temporary is
renamed over the destination. -/
def atomicWriteFile (fs : FS) (tmpName dst : FName) (data : List Nat) : FS :=
  renameFS (writeFS fs tmpName data) tmpName dst

/-- Small-step trace of `atomicWriteFile`: the initial state, one state after
each byte written to the temporary file (`fs.writeFileSync` is not atomic), and
the state after the rename. -/
def atomicWriteStates (fs : FS) (tmpName dst : FName) (data : List Nat) : List FS :=
  fs :: (List.range (data.length + 1)).map (fun k => writeFS fs tmpName (data.take k)) ++
    [atomicWriteFile fs tmpName dst data]

/-- C9: during a save, the envelope is first written completely to a temporary
file and then moved over the destination by one atomic rename: in every state
of the write trace the destination holds either the old contents or the new
contents (never a partial write), in every state before the rename it holds
exactly the old contents (so an interruption leaves the original byte-for-byte
intact), and after the rename it holds the new contents. -/
theorem C9_atomic_write (fs : FS) (t : String) (data : List Nat) :
    (∀ s ∈ atomicWriteStates fs (.tmp t) .vault data,
      lookupFS s .vault = lookupFS fs .vault ∨ lookupFS s .vault = some data)
    ∧ (∀ s ∈ (atomicWriteStates fs (.tmp t) .vault data).dropLast,
      lookupFS s .vault = lookupFS fs .vault)
    ∧ lookupFS (atomicWriteFile fs (.tmp t) .vault data) .vault = some data := by
  have htmp : (FName.tmp t) ≠ FName.vault := by simp
  have hmid : ∀ s ∈ (List.range (data.length + 1)).map
      (fun k => writeFS fs (.tmp t) (data.take k)),
      lookupFS s .vault = lookupFS fs .vault := by
    intro s hs
    simp only [List.mem_map] at hs
    obtain ⟨k, _, hk⟩ := hs
    subst hk
    exact lookupFS_writeFS_ne fs _ _ _ htmp
  have hfinal : lookupFS (atomicWriteFile fs (.tmp t) .vault data) .vault = some data := by
    unfold atomicWriteFile
    exact lookupFS_renameFS_dst _ _ _ _ (lookupFS_writeFS_self fs _ data)
  refine ⟨?_, ?_, hfinal⟩
  · intro s hs
    simp only [atomicWriteStates, List.mem_cons, List.mem_append, List.mem_singleton] at hs
    rcases hs with (rfl | hs) | rfl | hs
    · left
      rfl
    · left
      exact hmid s hs
    · right
      exact hfinal
    · exact absurd hs (List.not_mem_nil s)
  · intro s hs
    have hshape : (atomicWriteStates fs (.tmp t) .vault data).dropLast =
        fs :: (List.range (data.length + 1)).map
          (fun k => writeFS fs (.tmp t) (data.take k)) := by
      show ((fs :: (List.range (data.length + 1)).map
        (fun k => writeFS fs (.tmp t) (data.take k))) ++
          [atomicWriteFile fs (.tmp t) .vault data]).dropLast = _
      exact List.dropLast_concat
    rw [hshape] at hs
    rcases List.mem_cons.mp hs with rfl | hs
    · rfl
    · exact hmid s hs

/-! ## BackupManager (`listBackups`, `pruneBackups`, `backupExistingVaultOrThrow`) -/

/-- Timestamp part of a backup file name (`f.startsWith(base + ".bak-")`). -/
def isBak : FName → Option String
  | .bak ts => some ts
  | _ => none

/-- Backup timestamps present in the directory, in directory order. -/
def bakRaw : FS → List String
  | [] => []
  | (n, _) :: rest =>
    match isBak n with
    | some ts => ts :: bakRaw rest
    | none => bakRaw rest

/-- Model of `listBackups(vaultPath)`: the backup names of the directory,
sorted (lexicographic on the timestamp part, which the shared
`<base>.bak-` prefix makes equivalent to lexicographic on the full name). -/
def listBackups (fs : FS) : List String :=
  List.insertionSort (· ≤ ·) (bakRaw fs)

/-- Model of `pruneBackups(vaultPath, keep)`: delete all but the last `keep`
backups, oldest (lexicographically smallest) first. -/
def pruneBackups (fs : FS) (keep : Nat) : FS :=
  let backups := listBackups fs
  let extra := backups.length - keep
  (backups.take extra).foldl (fun acc ts => removeFS acc (.bak ts)) fs

/-- Model of `backupExistingVaultOrThrow(vaultPath, keep)`: nothing to do when
the vault is absent or empty; otherwise copy it byte-for-byte to
`<base>.bak-<ts>` (the `copyOk` flag injects an I/O failure of
`fs.copyFileSync`, which the function propagates) and prune. -/
def backupExistingVaultOrThrow (copyOk : Bool) (fs : FS) (ts : String) (keep : Nat) :
    Except VaultError FS :=
  match lookupFS fs .vault with
  | none => .ok fs
  | some c =>
    if c.length = 0 then .ok fs
    else if copyOk then .ok (pruneBackups (writeFS fs (.bak ts) c) keep)
    else .error .backupFailed

/-- Quoted JSON string, for the envelope's pretty-printed serialization. -/
def jsonStrQ (s : String) : String := ⟨strLit s⟩

/-- Pretty-printed envelope text, `JSON.stringify(vo, null, 2)`. -/
def envelopeText (vo : Envelope) : String :=
  "\x7b\n  \"version\": " ++ toString vo.version ++ ",\n  \"cipher\": " ++ jsonStrQ vo.cipher ++
    ",\n  \"iv\": " ++ jsonStrQ vo.iv ++ ",\n  \"tag\": " ++ jsonStrQ vo.tag ++
    ",\n  \"ciphertext\": " ++ jsonStrQ vo.ciphertext ++ "\n\x7d"

/-- Bytes `saveVault` writes for a given envelope (pretty text plus a trailing
newline, UTF-8 encoded). -/
def envelopeBytes (vo : Envelope) : List Nat :=
  utf8Encode (envelopeText vo ++ "\n")

/-- Model of `saveVault(vaultPath, key, data)` with the retention count as a
parameter (the source passes the constant `3`): back up the existing vault
(abort on backup failure), encrypt, and atomically write the new envelope. The
timestamp `ts`, temp-name id `tmpId` and nonce `iv` are the effectful inputs
the code draws from the clock, the pid and the RNG. -/
def saveVaultKeep (ks : List Nat → List Nat → Nat → Nat)
    (tagF : List Nat → List Nat → List Nat → List Nat) (keep : Nat) (copyOk : Bool)
    (fs : FS) (ts tmpId : String) (key iv : List Nat) (data : VaultData) :
    Except VaultError FS :=
  match backupExistingVaultOrThrow copyOk fs ts keep with
  | .error e => .error e
  | .ok fs1 =>
    .ok (atomicWriteFile fs1 (.tmp tmpId) .vault
      (envelopeBytes (encryptVaultJson ks tagF key iv data)))

/-- Model of `saveVault` exactly as the source calls it (retention 3). -/
def saveVault (ks : List Nat → List Nat → Nat → Nat)
    (tagF : List Nat → List Nat → List Nat → List Nat) (copyOk : Bool)
    (fs : FS) (ts tmpId : String) (key iv : List Nat) (data : VaultData) :
    Except VaultError FS :=
  saveVaultKeep ks tagF 3 copyOk fs ts tmpId key iv data

/-! ## VaultStore load (`readFileIfExists`, `JSON.parse` of the envelope,
`loadVault`) -/

/-- Model of `readFileIfExists(fp)`: `fs.readFileSync` in a `try`, any thrown
error (missing file, permission failure, …) becomes `null`. The read outcome is
the explicit input. -/
def readFileIfExists (r : Except String (List Nat)) : Option (List Nat) :=
  match r with
  | .ok bs => some bs
  | .error _ => none

def skipWs : List Char → List Char
  | [] => []
  | c :: cs => if c = ' ' ∨ c = '\n' ∨ c = '\t' ∨ c = '\r' then skipWs cs else c :: cs

/-- Expect the given token after optional whitespace. -/
def expectTok (tok : List Char) (cs : List Char) : Option (List Char) :=
  let cs1 := skipWs cs
  if tok.isPrefixOf cs1 then some (cs1.drop tok.length) else none

/-- Parse a decimal integer literal after optional whitespace. -/
def parseIntLit (cs : List Char) : Option (Int × List Char) :=
  let cs1 := skipWs cs
  let ds := cs1.takeWhile fun c => decide ('0' ≤ c ∧ c ≤ '9')
  if ds.isEmpty then none
  else some ((ds.foldl (fun a c => a * 10 + (c.toNat - 48)) 0 : Nat),
    cs1.dropWhile fun c => decide ('0' ≤ c ∧ c ≤ '9'))

/-- Parse `"name": "value"` (string-valued field). -/
def parseStrField (name : String) (cs : List Char) : Option (String × List Char) :=
  (expectTok (strLit name) cs).bind fun cs1 =>
    (expectTok [':'] cs1).bind fun cs2 =>
      parseJStr (skipWs cs2)

/-- Model of `JSON.parse` applied to the vault file text, read as an envelope
(fields in the order `saveVault` serializes them). -/
def parseEnvelope (s : String) : Option Envelope :=
  (expectTok ['\x7b'] s.data).bind fun cs =>
    (expectTok (strLit "version") cs).bind fun cs =>
      (expectTok [':'] cs).bind fun cs =>
        (parseIntLit cs).bind fun vp =>
          (expectTok [','] vp.2).bind fun cs =>
            (parseStrField "cipher" cs).bind fun cp =>
              (expectTok [','] cp.2).bind fun cs =>
                (parseStrField "iv" cs).bind fun ivp =>
                  (expectTok [','] ivp.2).bind fun cs =>
                    (parseStrField "tag" cs).bind fun tp =>
                      (expectTok [','] tp.2).bind fun cs =>
                        (parseStrField "ciphertext" cs).bind fun ctp =>
                          (expectTok ['\x7d'] ctp.2).bind fun cs =>
                            if (skipWs cs).isEmpty then
                              some ⟨vp.1, cp.1, ivp.1, tp.1, ctp.1⟩
                            else none

/-- Result of `loadVault`: the decrypted data and the `exists` flag. -/
structure LoadResult where
  data : VaultData
  existsFlag : Bool
deriving DecidableEq, Repr

/-- Model of `loadVault(vaultPath, key)`: a failed read yields the empty vault
with `exists: false`; otherwise the raw bytes are decoded, `JSON.parse`d into
the envelope and decrypted (parse and decrypt errors propagate). -/
def loadVault (ks : List Nat → List Nat → Nat → Nat)
    (tagF : List Nat → List Nat → List Nat → List Nat)
    (r : Except String (List Nat)) (key : List Nat) : Except VaultError LoadResult :=
  match readFileIfExists r with
  | none => .ok ⟨[], false⟩
  | some raw =>
    match utf8Decode raw with
    | none => .error .parseError
    | some chars =>
      match parseEnvelope ⟨chars⟩ with
      | none => .error .parseError
      | some vo => (decryptVaultJson ks tagF key vo).map fun d => ⟨d, true⟩

/-- C10: for every key and every failing read outcome — a missing vault file,
but equally any other read error such as a permission failure —
`loadVault` does not raise: it returns the empty data map with `exists=false`,
treating an unreadable existing vault exactly like a nonexistent one. -/
theorem C10_loadVault_read_error (ks : List Nat → List Nat → Nat → Nat)
    (tagF : List Nat → List Nat → List Nat → List Nat) (e : String) (key : List Nat) :
    loadVault ks tagF (.error e) key = .ok ⟨[], false⟩ := rfl

/-! ## Demonstration fixtures (a degenerate keystream and tag, concrete data) -/

/-- All-zero keystream (a legitimate instantiation of the cipher parameter). -/
def ksZero : List Nat → List Nat → Nat → Nat := fun _ _ _ => 0

/-- Empty tag derivation. -/
def tagNil : List Nat → List Nat → List Nat → List Nat := fun _ _ _ => []

def demoData : VaultData := [("acme", [("prod", [("TOKEN", "abc123")])])]

def demoData2 : VaultData := [("acme", [("prod", [("TOKEN", "newtoken")])])]

/-- Vault file bytes holding `demoData` under the demonstration cipher. -/
def demoVaultBytes : List Nat := envelopeBytes (encryptVaultJson ksZero tagNil [] [] demoData)

def demoFS : FS := [(FName.vault, demoVaultBytes)]

/-- `demoFS` after another process rewrote the vault file between load and
save. -/
def demoExtFS : FS := writeFS demoFS .vault (utf8Encode "externally rewritten")

set_option maxRecDepth 40000 in
/-- C1 (code bug): `saveVault` performs no optimistic-concurrency check at all.
In a run where the vault was loaded (observing its on-disk state), then
externally rewritten, `saveVault` still succeeds — there is no
`ConflictDetected` outcome — and replaces the file with the new envelope. -/
theorem C1_saveVault_ignores_external_rewrite :
    ∃ fs' : FS,
      loadVault ksZero tagNil (.ok demoVaultBytes) [] = .ok ⟨demoData, true⟩
      ∧ lookupFS demoExtFS .vault ≠ some demoVaultBytes
      ∧ saveVault ksZero tagNil true demoExtFS "20240101-000000000" "101" [] [] demoData2 =
          .ok fs'
      ∧ lookupFS fs' .vault =
          some (envelopeBytes (encryptVaultJson ksZero tagNil [] [] demoData2)) := by
  refine ⟨_, rfl, by decide, rfl, by decide⟩

/-! ## Backup bookkeeping lemmas -/

theorem bakRaw_removeFS (fs : FS) (t : String) :
    bakRaw (removeFS fs (.bak t)) = (bakRaw fs).filter (fun x => ! decide (x = t)) := by
  induction fs with
  | nil => rfl
  | cons a rest ih =>
    rcases a with ⟨n, c⟩
    by_cases h : n = FName.bak t
    · subst h
      simp [removeFS, bakRaw, isBak, ih]
    · cases n with
      | bak s =>
        have hst : ¬ s = t := by
          intro hc
          exact h (by rw [hc])
        simp [removeFS, h, bakRaw, isBak, ih, hst]
      | vault => simp [removeFS, h, bakRaw, isBak, ih]
      | tmp s => simp [removeFS, h, bakRaw, isBak, ih]
      | keyfile => simp [removeFS, h, bakRaw, isBak, ih]

theorem bakRaw_removeFS_nonbak (fs : FS) (n : FName) (h : isBak n = none) :
    bakRaw (removeFS fs n) = bakRaw fs := by
  induction fs with
  | nil => rfl
  | cons a rest ih =>
    rcases a with ⟨m, c⟩
    by_cases hm : m = n
    · subst hm
      simp [removeFS, bakRaw, ih, h]
    · simp [removeFS, hm, bakRaw, ih]

theorem bakRaw_writeFS_nonbak (fs : FS) (n : FName) (c : List Nat) (h : isBak n = none) :
    bakRaw (writeFS fs n c) = bakRaw fs := by
  induction fs with
  | nil => simp [writeFS, bakRaw, h]
  | cons a rest ih =>
    rcases a with ⟨m, d⟩
    by_cases hm : m = n
    · subst hm
      simp [writeFS, bakRaw]
    · simp [writeFS, hm, bakRaw, ih]

theorem mem_map_fst_iff_bakRaw (fs : FS) (ts : String) :
    FName.bak ts ∈ fs.map Prod.fst ↔ ts ∈ bakRaw fs := by
  induction fs with
  | nil => simp [bakRaw]
  | cons a rest ih =>
    rcases a with ⟨m, c⟩
    simp only [List.map_cons, List.mem_cons]
    cases m with
    | bak s =>
      simp only [bakRaw, isBak, List.mem_cons]
      constructor
      · rintro (h | h)
        · left
          simp only [FName.bak.injEq] at h
          exact h
        · right
          exact ih.mp h
      · rintro (h | h)
        · left
          rw [h]
        · right
          exact ih.mpr h
    | vault =>
      simp only [bakRaw, isBak]
      constructor
      · rintro (h | h)
        · exact absurd h (by simp)
        · exact ih.mp h
      · intro h
        right
        exact ih.mpr h
    | tmp s =>
      simp only [bakRaw, isBak]
      constructor
      · rintro (h | h)
        · exact absurd h (by simp)
        · exact ih.mp h
      · intro h
        right
        exact ih.mpr h
    | keyfile =>
      simp only [bakRaw, isBak]
      constructor
      · rintro (h | h)
        · exact absurd h (by simp)
        · exact ih.mp h
      · intro h
        right
        exact ih.mpr h

theorem bakRaw_writeFS_bak_fresh (fs : FS) (ts : String) (c : List Nat)
    (h : FName.bak ts ∉ fs.map Prod.fst) :
    bakRaw (writeFS fs (.bak ts) c) = bakRaw fs ++ [ts] := by
  induction fs with
  | nil => simp [writeFS, bakRaw, isBak]
  | cons a rest ih =>
    rcases a with ⟨m, d⟩
    simp only [List.map_cons, List.mem_cons] at h
    push_neg at h
    obtain ⟨hm, hrest⟩ := h
    rw [writeFS, if_neg (fun hc => hm hc.symm)]
    cases m with
    | bak s => simp [bakRaw, isBak, ih hrest]
    | vault => simpa [bakRaw, isBak] using ih hrest
    | tmp s => simpa [bakRaw, isBak] using ih hrest
    | keyfile => simpa [bakRaw, isBak] using ih hrest

theorem listBackups_write_fresh (fs : FS) (ts : String) (c : List Nat)
    (hts : ∀ t ∈ bakRaw fs, t < ts) :
    listBackups (writeFS fs (.bak ts) c) = listBackups fs ++ [ts] := by
  have hnotin : FName.bak ts ∉ fs.map Prod.fst := by
    rw [mem_map_fst_iff_bakRaw]
    intro hc
    exact absurd (hts ts hc) (lt_irrefl ts)
  rw [listBackups, bakRaw_writeFS_bak_fresh fs ts c hnotin]
  refine List.eq_of_perm_of_sorted ?_ (List.sorted_insertionSort _ _) ?_
  · exact (List.perm_insertionSort _ _).trans
      (List.Perm.append ((List.perm_insertionSort (· ≤ ·) (bakRaw fs)).symm)
        (List.Perm.refl [ts]))
  · refine List.pairwise_append.mpr ⟨List.sorted_insertionSort _ _, by simp, ?_⟩
    intro a ha b hb
    have ha2 : a ∈ bakRaw fs := ((List.perm_insertionSort (· ≤ ·) (bakRaw fs)).mem_iff).mp ha
    have hb2 : b = ts := by simpa using hb
    subst hb2
    exact le_of_lt (hts a ha2)

theorem lookupFS_foldRemove_ne (ds : List String) (fs : FS) (n : FName)
    (h : ∀ d ∈ ds, ¬ FName.bak d = n) :
    lookupFS (ds.foldl (fun acc t => removeFS acc (.bak t)) fs) n = lookupFS fs n := by
  induction ds generalizing fs with
  | nil => rfl
  | cons d ds ih =>
    simp only [List.foldl_cons]
    rw [ih _ (fun x hx => h x (by simp [hx]))]
    exact lookupFS_removeFS_ne fs _ _ (h d (by simp))

theorem lookupFS_pruneBackups_bak (fs : FS) (keep : Nat) (ts : String)
    (hmem : ∀ d ∈ (listBackups fs).take ((listBackups fs).length - keep), ¬ d = ts) :
    lookupFS (pruneBackups fs keep) (.bak ts) = lookupFS fs (.bak ts) := by
  simp only [pruneBackups]
  exact lookupFS_foldRemove_ne _ fs _ (by
    intro d hd
    intro hc
    exact hmem d hd (by injection hc))

theorem lookupFS_pruneBackups_nonbak (fs : FS) (keep : Nat) (n : FName)
    (h : isBak n = none) : lookupFS (pruneBackups fs keep) n = lookupFS fs n := by
  simp only [pruneBackups]
  apply lookupFS_foldRemove_ne
  intro d _ hc
  rw [← hc] at h
  simp [isBak] at h

/-- C4: over an existing non-empty vault, a byte-for-byte backup of the current
contents is created before any overwrite, and a failing backup copy aborts the
save with `BackupFailed` before anything is encrypted or written (the state is
unchanged; the error propagates). On success the new envelope is written and
the fresh backup holds exactly the old bytes. -/
theorem C4_backup_before_overwrite (ks : List Nat → List Nat → Nat → Nat)
    (tagF : List Nat → List Nat → List Nat → List Nat) (fs : FS) (ts tmpId : String)
    (key iv : List Nat) (data : VaultData) (c : List Nat)
    (hc : lookupFS fs .vault = some c) (hne : c ≠ [])
    (hts : ∀ t ∈ bakRaw fs, t < ts) :
    saveVault ks tagF false fs ts tmpId key iv data = .error .backupFailed
    ∧ ∀ fs', saveVault ks tagF true fs ts tmpId key iv data = .ok fs' →
        lookupFS fs' (.bak ts) = some c
        ∧ lookupFS fs' .vault =
            some (envelopeBytes (encryptVaultJson ks tagF key iv data)) := by
  have hlen : ¬ c.length = 0 := by
    intro h0
    exact hne (List.length_eq_zero.mp h0)
  constructor
  · simp only [saveVault, saveVaultKeep, backupExistingVaultOrThrow, hc]
    rw [if_neg hlen]
    rfl
  · intro fs' hsave
    have heval : saveVault ks tagF true fs ts tmpId key iv data =
        .ok (atomicWriteFile (pruneBackups (writeFS fs (.bak ts) c) 3) (.tmp tmpId) .vault
          (envelopeBytes (encryptVaultJson ks tagF key iv data))) := by
      simp [saveVault, saveVaultKeep, backupExistingVaultOrThrow, hc, hlen]
    rw [heval] at hsave
    injection hsave with hfs'
    subst hfs'
    constructor
    · have hbakkeep : lookupFS (pruneBackups (writeFS fs (.bak ts) c) 3) (.bak ts) =
          lookupFS (writeFS fs (.bak ts) c) (.bak ts) := by
        apply lookupFS_pruneBackups_bak
        intro d hd
        rw [listBackups_write_fresh fs ts c hts] at hd
        have hlb : (listBackups fs ++ [ts]).length - 3 ≤ (listBackups fs).length := by
          simp only [List.length_append, List.length_singleton]
          omega
        rw [List.take_append_of_le_length hlb] at hd
        have hdmem : d ∈ listBackups fs := List.mem_of_mem_take hd
        have : d ∈ bakRaw fs :=
          ((List.perm_insertionSort (· ≤ ·) (bakRaw fs)).mem_iff).mp hdmem
        intro hdts
        subst hdts
        exact absurd (hts d this) (lt_irrefl d)
      unfold atomicWriteFile
      rw [lookupFS_renameFS_other _ _ _ _ (by simp) (by simp),
        lookupFS_writeFS_ne _ _ _ _ (by simp), hbakkeep]
      exact lookupFS_writeFS_self fs _ c
    · unfold atomicWriteFile
      exact lookupFS_renameFS_dst _ _ _ _ (lookupFS_writeFS_self _ _ _)

/-- Witness for C4 at a concrete filesystem. -/
theorem C4_backup_before_overwrite_witness :
    lookupFS demoFS .vault = some demoVaultBytes ∧
      saveVault ksZero tagNil false demoFS "t1" "101" [] [] demoData2 =
        .error .backupFailed := by
  refine ⟨by decide, ?_⟩
  exact (C4_backup_before_overwrite ksZero tagNil demoFS "t1" "101" [] [] demoData2
    demoVaultBytes (by decide) (by decide) (by decide)).1

/-! ## Backup retention across repeated saves -/

theorem bakRaw_foldRemove (ds : List String) (fs : FS) :
    bakRaw (ds.foldl (fun acc t => removeFS acc (.bak t)) fs) =
      (bakRaw fs).filter (fun x => ! decide (x ∈ ds)) := by
  induction ds generalizing fs with
  | nil => simp
  | cons d ds ih =>
    simp only [List.foldl_cons]
    rw [ih, bakRaw_removeFS, List.filter_filter]
    congr 1
    funext x
    by_cases h1 : x = d <;> by_cases h2 : x ∈ ds <;> simp [h1, h2]

theorem insertionSort_filter (p : String → Bool) (l : List String) :
    List.insertionSort (· ≤ ·) (l.filter p) = (List.insertionSort (· ≤ ·) l).filter p := by
  apply List.eq_of_perm_of_sorted (r := (· ≤ ·))
  · exact (List.perm_insertionSort _ _).trans
      (((List.perm_insertionSort (· ≤ ·) l).symm).filter p)
  · exact List.sorted_insertionSort _ _
  · exact (List.sorted_insertionSort (· ≤ ·) l).filter p

theorem filter_not_mem_take_aux (T D : List String) (hdisj : T.Disjoint D) :
    (T ++ D).filter (fun x => ! decide (x ∈ T)) = D := by
  rw [List.filter_append]
  have h1 : T.filter (fun x => ! decide (x ∈ T)) = [] := by
    rw [List.filter_eq_nil_iff]
    intro a ha
    simp [ha]
  have h2 : D.filter (fun x => ! decide (x ∈ T)) = D := by
    rw [List.filter_eq_self]
    intro a ha
    have hnotin : a ∉ T := fun hmem => hdisj hmem ha
    simp [hnotin]
  rw [h1, h2, List.nil_append]

theorem filter_not_mem_take (B : List String) (n : Nat) (hnd : B.Nodup) :
    B.filter (fun x => ! decide (x ∈ B.take n)) = B.drop n := by
  have hnd2 : ((B.take n) ++ (B.drop n)).Nodup := by
    rw [List.take_append_drop]
    exact hnd
  have hdisj := (List.nodup_append.mp hnd2).2.2
  have h := filter_not_mem_take_aux (B.take n) (B.drop n) hdisj
  rw [List.take_append_drop] at h
  exact h

theorem listBackups_pruneBackups (fs : FS) (keep : Nat) (hnd : (listBackups fs).Nodup) :
    listBackups (pruneBackups fs keep) =
      (listBackups fs).drop ((listBackups fs).length - keep) := by
  simp only [pruneBackups]
  rw [listBackups, bakRaw_foldRemove, insertionSort_filter]
  exact filter_not_mem_take _ _ hnd

theorem bakRaw_atomicWrite (fs : FS) (t : String) (bytes : List Nat) :
    bakRaw (atomicWriteFile fs (.tmp t) .vault bytes) = bakRaw fs := by
  unfold atomicWriteFile renameFS
  rw [lookupFS_writeFS_self]
  rw [bakRaw_writeFS_nonbak _ _ _ (by simp [isBak]),
    bakRaw_removeFS_nonbak _ _ (by simp [isBak]),
    bakRaw_writeFS_nonbak _ _ _ (by simp [isBak])]

theorem envelopeBytes_ne_nil (vo : Envelope) : envelopeBytes vo ≠ [] := by
  apply utf8Encode_ne_nil
  rw [String.data_append]
  simp

/-- Per-save effectful inputs: timestamp, temp-file id, nonce, new data. -/
structure SaveArgs where
  ts : String
  tmpId : String
  iv : List Nat
  data : VaultData

/-- A sequence of `saveVault` calls (each reloading conceptually, all
successful), threading the filesystem state. -/
def saveSeq (ks : List Nat → List Nat → Nat → Nat)
    (tagF : List Nat → List Nat → List Nat → List Nat) (keep : Nat) (key : List Nat)
    (fs : FS) : List SaveArgs → Except VaultError FS
  | [] => .ok fs
  | a :: rest =>
    match saveVaultKeep ks tagF keep true fs a.ts a.tmpId key a.iv a.data with
    | .error e => .error e
    | .ok fs1 => saveSeq ks tagF keep key fs1 rest

theorem saveVaultKeep_eval (ks : List Nat → List Nat → Nat → Nat)
    (tagF : List Nat → List Nat → List Nat → List Nat) (keep : Nat) (key : List Nat)
    (a : SaveArgs) (fs : FS) (c : List Nat)
    (hv : lookupFS fs .vault = some c) (hne : c ≠ []) :
    saveVaultKeep ks tagF keep true fs a.ts a.tmpId key a.iv a.data =
      .ok (atomicWriteFile (pruneBackups (writeFS fs (.bak a.ts) c) keep) (.tmp a.tmpId)
        .vault (envelopeBytes (encryptVaultJson ks tagF key a.iv a.data))) := by
  have hlen : ¬ c.length = 0 := by
    intro h0
    exact hne (List.length_eq_zero.mp h0)
  simp [saveVaultKeep, backupExistingVaultOrThrow, hv, hlen]

theorem saveSeq_inv (ks : List Nat → List Nat → Nat → Nat)
    (tagF : List Nat → List Nat → List Nat → List Nat) (keep : Nat) (key : List Nat)
    (saves : List SaveArgs) (hkeep : 1 ≤ keep) :
    ∀ (fs : FS) (c : List Nat) (B : List String),
      lookupFS fs .vault = some c → c ≠ [] → listBackups fs = B → B.length ≤ keep →
      List.Sorted (· < ·) (B ++ saves.map SaveArgs.ts) →
      ∃ fs', saveSeq ks tagF keep key fs saves = .ok fs'
        ∧ listBackups fs' =
            (B ++ saves.map SaveArgs.ts).drop ((B.length + saves.length) - keep) := by
  induction saves with
  | nil =>
    intro fs c B hv hne hB hlen hsort
    refine ⟨fs, rfl, ?_⟩
    simp only [List.map_nil, List.append_nil, List.length_nil, Nat.add_zero]
    rw [hB, Nat.sub_eq_zero_of_le hlen, List.drop_zero]
  | cons a rest ih =>
    intro fs c B hv hne hB hlen hsort
    have hsort2 : List.Sorted (· < ·) ((B ++ [a.ts]) ++ rest.map SaveArgs.ts) := by
      simpa [List.append_assoc] using hsort
    have hcross := (List.pairwise_append.mp hsort).2.2
    have hts : ∀ t ∈ bakRaw fs, t < a.ts := by
      intro t ht
      have htB : t ∈ B := by
        rw [← hB]
        exact ((List.perm_insertionSort (· ≤ ·) (bakRaw fs)).symm.mem_iff).mp ht
      exact hcross t htB a.ts (by simp)
    have h1 : listBackups (writeFS fs (.bak a.ts) c) = B ++ [a.ts] := by
      rw [listBackups_write_fresh fs a.ts c hts, hB]
    have hBa_sorted : List.Sorted (· < ·) (B ++ [a.ts]) := by
      refine List.Pairwise.sublist ?_ hsort2
      exact List.sublist_append_left _ _
    have hnodup : (B ++ [a.ts]).Nodup := hBa_sorted.imp (fun h => ne_of_lt h)
    have h2 : listBackups (pruneBackups (writeFS fs (.bak a.ts) c) keep) =
        (B ++ [a.ts]).drop ((B.length + 1) - keep) := by
      rw [listBackups_pruneBackups _ keep (by rw [h1]; exact hnodup), h1]
      congr 1
      simp
    have hstepBak : listBackups (atomicWriteFile
        (pruneBackups (writeFS fs (.bak a.ts) c) keep) (.tmp a.tmpId) .vault
        (envelopeBytes (encryptVaultJson ks tagF key a.iv a.data))) =
        (B ++ [a.ts]).drop ((B.length + 1) - keep) := by
      rw [listBackups, bakRaw_atomicWrite]
      exact h2
    have hstepVault : lookupFS (atomicWriteFile
        (pruneBackups (writeFS fs (.bak a.ts) c) keep) (.tmp a.tmpId) .vault
        (envelopeBytes (encryptVaultJson ks tagF key a.iv a.data))) .vault =
        some (envelopeBytes (encryptVaultJson ks tagF key a.iv a.data)) := by
      unfold atomicWriteFile
      exact lookupFS_renameFS_dst _ _ _ _ (lookupFS_writeFS_self _ _ _)
    have hB1len : ((B ++ [a.ts]).drop ((B.length + 1) - keep)).length ≤ keep := by
      rw [List.length_drop]
      simp only [List.length_append, List.length_singleton]
      omega
    have hB1sorted : List.Sorted (· < ·)
        ((B ++ [a.ts]).drop ((B.length + 1) - keep) ++ rest.map SaveArgs.ts) := by
      refine List.Pairwise.sublist ?_ hsort2
      exact List.Sublist.append (List.drop_sublist _ _) (List.Sublist.refl _)
    obtain ⟨fs', hseq, hlb⟩ := ih _ _ _ hstepVault
      (envelopeBytes_ne_nil _) hstepBak hB1len hB1sorted
    refine ⟨fs', ?_, ?_⟩
    · show (match saveVaultKeep ks tagF keep true fs a.ts a.tmpId key a.iv a.data with
        | Except.error e => (Except.error e : Except VaultError FS)
        | Except.ok fs1 => saveSeq ks tagF keep key fs1 rest) = Except.ok fs'
      rw [saveVaultKeep_eval ks tagF keep key a fs c hv hne]
      exact hseq
    · rw [hlb]
      have hle : (B.length + 1) - keep ≤ (B ++ [a.ts]).length := by
        simp only [List.length_append, List.length_singleton]
        omega
      rw [← List.drop_append_of_le_length hle, List.drop_drop]
      have hshape : (B ++ [a.ts]) ++ rest.map SaveArgs.ts =
          B ++ (a :: rest).map SaveArgs.ts := by
        simp
      rw [hshape]
      congr 1
      have hB1 : ((B ++ [a.ts]).drop ((B.length + 1) - keep)).length =
          (B.length + 1) - ((B.length + 1) - keep) := by
        rw [List.length_drop, List.length_append, List.length_singleton]
      rw [hB1, List.length_cons]
      omega

/-- C5: starting from an existing non-empty vault with no backups, after
`N + k` successful saves (`k ≥ 1`) with retention count `N`, exactly `N` backup
files remain, and they are the `N` most recent ones: pruning deletes the
lexicographically smallest (oldest, by the monotonic timestamp naming) backups
first, leaving the last `N` timestamps of the save sequence. -/
theorem C5_backup_retention (ks : List Nat → List Nat → Nat → Nat)
    (tagF : List Nat → List Nat → List Nat → List Nat) (key : List Nat) (keep k : Nat)
    (saves : List SaveArgs) (fs : FS) (c : List Nat)
    (hkeep : 1 ≤ keep) (hk : 1 ≤ k) (hlen : saves.length = keep + k)
    (hv : lookupFS fs .vault = some c) (hne : c ≠ []) (hb0 : listBackups fs = [])
    (hsorted : (saves.map SaveArgs.ts).Sorted (· < ·)) :
    ∃ fs', saveSeq ks tagF keep key fs saves = .ok fs'
      ∧ listBackups fs' = (saves.map SaveArgs.ts).drop k
      ∧ (listBackups fs').length = keep := by
  obtain ⟨fs', hseq, hlb⟩ := saveSeq_inv ks tagF keep key saves hkeep fs c [] hv hne hb0
    (by simp) (by simpa using hsorted)
  rw [List.nil_append, List.length_nil, Nat.zero_add, hlen] at hlb
  have hidx : keep + k - keep = k := by omega
  rw [hidx] at hlb
  refine ⟨fs', hseq, hlb, ?_⟩
  rw [hlb, List.length_drop, List.length_map, hlen]
  omega

/-- Witness for C5: retention 3, four saves, three backups remain — the three
most recent. -/
theorem C5_backup_retention_witness :
    ∃ fs', saveSeq ksZero tagNil 3 [] demoFS
        [⟨"a", "1", [], demoData⟩, ⟨"b", "2", [], demoData⟩,
          ⟨"c", "3", [], demoData⟩, ⟨"d", "4", [], demoData2⟩] = .ok fs'
      ∧ listBackups fs' = ["b", "c", "d"]
      ∧ (listBackups fs').length = 3 := by
  have hsorted : List.Sorted (· < ·) (["a", "b", "c", "d"]) := by
    simp only [List.Sorted, List.pairwise_cons, List.mem_cons, List.not_mem_nil,
      List.Pairwise.nil, String.lt_iff_toList_lt]
    refine ⟨?_, ?_, ?_, ?_⟩
    · intro b hb
      rcases hb with rfl | rfl | rfl | h
      · decide
      · decide
      · decide
      · exact absurd h (by simp)
    · intro b hb
      rcases hb with rfl | rfl | h
      · decide
      · decide
      · exact absurd h (by simp)
    · intro b hb
      rcases hb with rfl | h
      · decide
      · exact absurd h (by simp)
    · simp
  exact C5_backup_retention ksZero tagNil [] 3 1
    [⟨"a", "1", [], demoData⟩, ⟨"b", "2", [], demoData⟩,
      ⟨"c", "3", [], demoData⟩, ⟨"d", "4", [], demoData2⟩] demoFS demoVaultBytes
    (by decide) (by decide) (by decide) (by decide) (by decide) rfl hsorted

/-! ## KeyStore (`readVaultKey`, `ensureKeyFile`) -/

/-- Whitespace for JS `String.prototype.trim`. -/
def isJsWs (c : Char) : Bool :=
  c = ' ' ∨ c = '\n' ∨ c = '\t' ∨ c = '\r'

/-- JS `s.trim()`. -/
def jsTrim (s : String) : String :=
  ⟨((s.data.dropWhile isJsWs).reverse.dropWhile isJsWs).reverse⟩

/-- Character class of the key-file regex, `[A-Za-z0-9+/=]`. -/
def isB64KeyChar (c : Char) : Bool :=
  ('A' ≤ c ∧ c ≤ 'Z') ∨ ('a' ≤ c ∧ c ≤ 'z') ∨ ('0' ≤ c ∧ c ≤ '9') ∨
    c = '+' ∨ c = '/' ∨ c = '='

/-- Leftmost maximal run of key characters of length at least 40: the match of
the regex `([A-Za-z0-9+/=]` followed by a repetition bound of 40 or more and
`)` against the trimmed key file text. -/
def firstKeyRunAux : Nat → List Char → Option (List Char)
  | _, [] => none
  | 0, _ :: _ => none
  | fuel + 1, c :: rest =>
    if isB64KeyChar c then
      let run := c :: rest.takeWhile isB64KeyChar
      if 40 ≤ run.length then some run
      else firstKeyRunAux fuel (rest.dropWhile isB64KeyChar)
    else firstKeyRunAux fuel rest

def firstKeyRun (cs : List Char) : Option (List Char) :=
  firstKeyRunAux cs.length cs

/-- Model of `readVaultKey(keyPath)`: read (the read outcome is the `Option`
input), decode as UTF-8, trim, extract the first long base64-looking run,
decode it, and accept only an exactly-32-byte key. -/
def readVaultKey (raw : Option (List Nat)) : Option (List Nat) :=
  match raw with
  | none => none
  | some bytes =>
    let s := jsTrim (toUtf8String bytes)
    match firstKeyRun s.data with
    | none => none
    | some run =>
      let b := b64Decode ⟨run⟩
      if b.length = 32 then some b else none

/-- Model of `ensureKeyFile(keyPath)`: return an existing valid key unchanged
(`created=false`); otherwise generate a fresh key (the `newKey` argument models
`crypto.randomBytes(32)`) and atomically write it, returning `created=true`. -/
def ensureKeyFile (fs : FS) (newKey : List Nat) (tmpId : String) :
    FS × List Nat × Bool :=
  match readVaultKey (lookupFS fs .keyfile) with
  | some k => (fs, k, false)
  | none =>
    (atomicWriteFile fs (.tmp tmpId) .keyfile (utf8Encode (b64Encode newKey ++ "\n")),
      newKey, true)

/-- C3 counterexample: a key file that exists but does not parse as base64 to
32 bytes does not make `ensureKeyFile` fail — it generates a fresh key,
reports `created=true`, and overwrites the existing file. -/
theorem C3_ensureKeyFile_overwrites_invalid :
    lookupFS [(FName.keyfile, utf8Encode "hello")] .keyfile ≠ none
    ∧ readVaultKey (lookupFS [(FName.keyfile, utf8Encode "hello")] .keyfile) = none
    ∧ (ensureKeyFile [(FName.keyfile, utf8Encode "hello")]
        (List.replicate 32 7) "t").2.2 = true
    ∧ lookupFS (ensureKeyFile [(FName.keyfile, utf8Encode "hello")]
        (List.replicate 32 7) "t").1 .keyfile ≠ some (utf8Encode "hello") := by
  refine ⟨by decide, by decide, by decide, by decide⟩

/-- C3 as the code actually behaves: whenever the key file's contents do not
parse to a 32-byte key (which includes the exists-but-invalid case),
`ensureKeyFile` does not fail with `InvalidKeyFormat`: it returns a freshly
generated key with `created=true` and atomically overwrites the key file with
its base64 encoding. (The user-visible invalid-key failure lives in the CLI
layer, which checks the key file with `readVaultKey` and dies without calling
`ensureKeyFile`.) -/
theorem C3_ensureKeyFile_regenerates (fs : FS) (newKey : List Nat) (tmpId : String)
    (hbad : readVaultKey (lookupFS fs .keyfile) = none) :
    (ensureKeyFile fs newKey tmpId).2.2 = true
    ∧ (ensureKeyFile fs newKey tmpId).2.1 = newKey
    ∧ lookupFS (ensureKeyFile fs newKey tmpId).1 .keyfile =
        some (utf8Encode (b64Encode newKey ++ "\n")) := by
  simp only [ensureKeyFile, hbad]
  refine ⟨trivial, trivial, ?_⟩
  unfold atomicWriteFile
  exact lookupFS_renameFS_dst _ _ _ _ (lookupFS_writeFS_self _ _ _)

/-- Witness for the amended C3 at the concrete invalid key file. -/
theorem C3_ensureKeyFile_regenerates_witness :
    readVaultKey (lookupFS [(FName.keyfile, utf8Encode "hello")] .keyfile) = none
    ∧ lookupFS (ensureKeyFile [(FName.keyfile, utf8Encode "hello")]
        (List.replicate 32 7) "t").1 .keyfile =
      some (utf8Encode (b64Encode (List.replicate 32 7) ++ "\n")) :=
  ⟨by decide,
    (C3_ensureKeyFile_regenerates [(FName.keyfile, utf8Encode "hello")]
      (List.replicate 32 7) "t" (by decide)).2.2⟩

/-! ## Association-list lemmas for the secret map -/

theorem lookupA_updateA_self (l : List (String × α)) (k : String) (v : α) :
    lookupA (updateA l k v) k = some v := by
  induction l with
  | nil => simp [updateA, lookupA]
  | cons a rest ih =>
    rcases a with ⟨n, w⟩
    by_cases h : n = k
    · simp [updateA, lookupA, h]
    · simp [updateA, lookupA, h, ih]

theorem lookupA_eraseA_self (l : List (String × α)) (k : String) :
    lookupA (eraseA l k) k = none := by
  induction l with
  | nil => simp [eraseA, lookupA]
  | cons a rest ih =>
    rcases a with ⟨n, w⟩
    by_cases h : n = k
    · simp [eraseA, h, ih]
    · simp [eraseA, lookupA, h, ih]

theorem lookupA_mem (l : List (String × α)) (k : String) (v : α)
    (h : lookupA l k = some v) : (k, v) ∈ l := by
  induction l with
  | nil => simp [lookupA] at h
  | cons a rest ih =>
    rcases a with ⟨n, w⟩
    by_cases hn : n = k
    · subst hn
      simp only [lookupA, if_true] at h
      injection h with h2
      subst h2
      simp
    · simp only [lookupA, hn, if_false] at h
      simp [ih h]

theorem mem_updateA (l : List (String × α)) (k : String) (v : α) (p : String × α)
    (h : p ∈ updateA l k v) : p = (k, v) ∨ p ∈ l := by
  induction l with
  | nil =>
    simp only [updateA, List.mem_singleton] at h
    exact Or.inl h
  | cons a rest ih =>
    rcases a with ⟨n, w⟩
    by_cases hn : n = k
    · subst hn
      simp only [updateA, if_true, List.mem_cons] at h
      rcases h with rfl | h
      · exact Or.inl rfl
      · exact Or.inr (by simp [h])
    · simp only [updateA, hn, if_false, List.mem_cons] at h
      rcases h with rfl | h
      · exact Or.inr (by simp)
      · rcases ih h with h2 | h2
        · exact Or.inl h2
        · exact Or.inr (by simp [h2])

theorem mem_eraseA (l : List (String × α)) (k : String) (p : String × α)
    (h : p ∈ eraseA l k) : p ∈ l := by
  induction l with
  | nil => simp [eraseA] at h
  | cons a rest ih =>
    rcases a with ⟨n, w⟩
    by_cases hn : n = k
    · subst hn
      simp only [eraseA, if_true] at h
      simp [ih h]
    · simp only [eraseA, hn, if_false, List.mem_cons] at h
      rcases h with rfl | h
      · simp
      · simp [ih h]

theorem updateA_ne_nil (l : List (String × α)) (k : String) (v : α) :
    updateA l k v ≠ [] := by
  cases l with
  | nil => simp [updateA]
  | cons a rest =>
    rcases a with ⟨n, w⟩
    by_cases h : n = k <;> simp [updateA, h]

theorem not_mem_map_fst_eraseA (l : List (String × α)) (k : String) :
    k ∉ (eraseA l k).map Prod.fst := by
  induction l with
  | nil => simp [eraseA]
  | cons a rest ih =>
    rcases a with ⟨n, w⟩
    by_cases hn : n = k
    · simpa [eraseA, hn] using ih
    · simp only [eraseA, hn, if_false, List.map_cons, List.mem_cons]
      rintro (h | h)
      · exact hn h.symm
      · exact ih h

/-! ## SecretRepository CLI operations on the in-memory map -/

/-- Sorting used by `list` (`Object.keys(x).sort((a, b) => a.localeCompare(b))`),
modelled as lexicographic string sort. -/
def sortKeys (l : List String) : List String :=
  List.insertionSort (· ≤ ·) l

/-- JS `data?.[service]?.[category]`. -/
def lookup2 (data : VaultData) (service category : String) : Option InnerMap :=
  (lookupA data service).bind fun svc => lookupA svc category

/-- Model of the `del` subcommand's mutation: `NOT_FOUND` (`none`) when the
triple is absent; otherwise delete the key, then prune the category node if it
became empty, then prune the service node if it became empty. -/
def delCmd (data : VaultData) (service category K : String) : Option VaultData :=
  match lookup2 data service category with
  | none => none
  | some cat =>
    match lookupA cat K with
    | none => none
    | some _ =>
      let cat2 := eraseA cat K
      if cat2.isEmpty then
        let svc := (lookupA data service).getD []
        let svc2 := eraseA svc category
        if svc2.isEmpty then some (eraseA data service)
        else some (updateA data service svc2)
      else
        some (updateA data service
          (updateA ((lookupA data service).getD []) category cat2))

/-- Model of `list <service>`: the service's category names, sorted. -/
def listCats (data : VaultData) (service : String) : List String :=
  sortKeys (((lookupA data service).getD []).map Prod.fst)

/-- Model of `list <service> <category>`: the category's key names, sorted. -/
def listKeys (data : VaultData) (service category : String) : List String :=
  sortKeys (((lookupA ((lookupA data service).getD []) category).getD []).map Prod.fst)

/-- No empty category or service node exists in the map. -/
def NoEmptyNodes (data : VaultData) : Prop :=
  ∀ p ∈ data, p.2 ≠ [] ∧ ∀ q ∈ p.2, q.2 ≠ []

theorem mem_sortKeys (x : String) (l : List String) : x ∈ sortKeys l ↔ x ∈ l :=
  (List.perm_insertionSort (· ≤ ·) l).mem_iff

/-- C7: deleting a present `(service, category, KEY)` succeeds, and pruning
holds: if the deleted key was the last one in its category the category node is
removed (subsequent lookups and `list` show nothing for it), if that category
was also the last one under its service the service node is removed too, and no
empty category or service node ever persists. -/
theorem C7_del_prunes_empty_nodes (data : VaultData) (s c K : String)
    (svc : MidMap) (cat : InnerMap) (v : String)
    (hsvc : lookupA data s = some svc) (hcat : lookupA svc c = some cat)
    (hv : lookupA cat K = some v) :
    ∃ d', delCmd data s c K = some d'
      ∧ (eraseA cat K = [] → lookup2 d' s c = none ∧ listKeys d' s c = []
          ∧ c ∉ listCats d' s)
      ∧ (eraseA cat K = [] ∧ eraseA svc c = [] → lookupA d' s = none
          ∧ listCats d' s = [])
      ∧ (NoEmptyNodes data → NoEmptyNodes d') := by
  have hl2 : lookup2 data s c = some cat := by
    simp [lookup2, hsvc, hcat]
  have hmemsvc : (s, svc) ∈ data := lookupA_mem data s svc hsvc
  by_cases h1 : eraseA cat K = []
  · by_cases h2 : eraseA svc c = []
    · refine ⟨eraseA data s, ?_, ?_, ?_, ?_⟩
      · simp [delCmd, hl2, hv, hsvc, h1, h2]
      · intro _
        refine ⟨?_, ?_, ?_⟩
        · simp [lookup2, lookupA_eraseA_self]
        · simp [listKeys, lookupA_eraseA_self, sortKeys, lookupA]
        · simp [listCats, lookupA_eraseA_self, sortKeys]
      · intro _
        exact ⟨lookupA_eraseA_self data s,
          by simp [listCats, lookupA_eraseA_self, sortKeys]⟩
      · intro hno p hp
        exact hno p (mem_eraseA data s p hp)
    · refine ⟨updateA data s (eraseA svc c), ?_, ?_, ?_, ?_⟩
      · simp [delCmd, hl2, hv, hsvc, h1, h2, List.isEmpty_iff]
      · intro _
        refine ⟨?_, ?_, ?_⟩
        · simp [lookup2, lookupA_updateA_self, lookupA_eraseA_self]
        · simp [listKeys, lookupA_updateA_self, lookupA_eraseA_self, sortKeys]
        · rw [listCats, lookupA_updateA_self]
          intro hmem
          exact not_mem_map_fst_eraseA svc c ((mem_sortKeys _ _).mp hmem)
      · rintro ⟨_, hcontra⟩
        exact absurd hcontra h2
      · intro hno p hp
        rcases mem_updateA data s _ p hp with rfl | hp2
        · refine ⟨h2, ?_⟩
          intro q hq
          exact ((hno (s, svc) hmemsvc).2) q (mem_eraseA svc c q hq)
        · exact hno p hp2
  · refine ⟨updateA data s (updateA svc c (eraseA cat K)), ?_, ?_, ?_, ?_⟩
    · simp [delCmd, hl2, hv, hsvc, h1, List.isEmpty_iff]
    · intro hcontra
      exact absurd hcontra h1
    · rintro ⟨hcontra, _⟩
      exact absurd hcontra h1
    · intro hno p hp
      rcases mem_updateA data s _ p hp with rfl | hp2
      · refine ⟨updateA_ne_nil svc c _, ?_⟩
        intro q hq
        rcases mem_updateA svc c _ q hq with rfl | hq2
        · exact h1
        · exact ((hno (s, svc) hmemsvc).2) q hq2
      · exact hno p hp2

/-- Witness for C7: deleting the only key of the only category of the only
service empties the whole map, with the category and service nodes gone. -/
theorem C7_del_prunes_empty_nodes_witness :
    ∃ d', delCmd demoData "acme" "prod" "TOKEN" = some d'
      ∧ (eraseA [("TOKEN", "abc123")] "TOKEN" = [] →
          lookup2 d' "acme" "prod" = none ∧ listKeys d' "acme" "prod" = []
          ∧ "prod" ∉ listCats d' "acme")
      ∧ (eraseA [("TOKEN", "abc123")] "TOKEN" = [] ∧
          eraseA [("prod", [("TOKEN", "abc123")])] "prod" = [] →
          lookupA d' "acme" = none ∧ listCats d' "acme" = [])
      ∧ (NoEmptyNodes demoData → NoEmptyNodes d') :=
  C7_del_prunes_empty_nodes demoData "acme" "prod" "TOKEN"
    [("prod", [("TOKEN", "abc123")])] [("TOKEN", "abc123")] "abc123"
    (by decide) (by decide) (by decide)

/-! ## Inspect-mode redaction (`redact`, the `run` command without a child
command) -/

/-- Model of `redact(v)`: short values are fully masked, longer ones keep their
first four and last four characters (`s.slice(0, 4)`, `s.slice(-4)`), always
with the length appended. -/
def redact (v : String) : String :=
  let len := v.data.length
  if len ≤ 8 then "*** (len=" ++ toString len ++ ")"
  else
    (⟨v.data.take 4⟩ : String) ++ "…" ++ (⟨v.data.drop (len - 4)⟩ : String) ++
      " (len=" ++ toString len ++ ")"

/-- Value printed for a resolved secret in inspect mode: the full value when
the unsafe-values flag is set, the redacted form otherwise. -/
def inspectValue (showFull : Bool) (v : String) : String :=
  if showFull then v else redact v

/-- C8: in redacted mode a value of length at most 8 prints as
`*** (len=N)` and a longer one as its first four characters, an ellipsis, its
last four characters and ` (len=N)`; with the unsafe flag set the full value is
printed. The spec's example `abc123` redacts to `*** (len=6)`. -/
theorem C8_redact_spec (v : String) :
    inspectValue false v =
      (if v.data.length ≤ 8 then "*** (len=" ++ toString v.data.length ++ ")"
       else (⟨v.data.take 4⟩ : String) ++ "…" ++
         (⟨v.data.drop (v.data.length - 4)⟩ : String) ++
         " (len=" ++ toString v.data.length ++ ")")
    ∧ inspectValue true v = v
    ∧ inspectValue false "abc123" = "*** (len=6)"
    ∧ inspectValue true "abc123" = "abc123" := by
  refine ⟨rfl, rfl, by decide, rfl⟩

end Dotkc
